import Mathlib

/-!
# Maze engine of `mainwindow.cpp`

A shallow embedding of the algorithmic core of `MainWindow`: the Prim generator
(`generateMaze`), the A* search (`aStar`), the depth-first path enumerator
(`findAllPaths`), the text loader (`loadMazeFromFile`) and the playback
sequencer (`startPathAnimation`, `onAnimationStep`).

C++ `int` values are modelled by `Int`; the fixed array `int maze[100][100]` is
modelled by a total function `Int → Int → Int` indexed `maze y x`.
-/

set_option autoImplicit false

namespace Maze

/-! ## Data model -/

/-- A grid coordinate `QPoint(x, y)`. -/
structure QPoint where
  x : Int
  y : Int
deriving DecidableEq, Repr

/-- The state of `MainWindow` that the core algorithms read and write.
`maze y x` is `maze[y][x]`: 0 passage, 1 wall, 2 the frontier tag of Prim. -/
structure MainWindow where
  rows : Int
  cols : Int
  pathIndex : Int
  animationIndex : Int
  startPoint : QPoint
  endPoint : QPoint
  maze : Int → Int → Int
  blockedPoints : List QPoint
  currentPath : List QPoint
  allPaths : List (List QPoint)
  animatedPath : List QPoint

/-- The number of cells of the grid. -/
def cellCount (s : MainWindow) : Nat := (s.rows * s.cols).toNat

/-! ## Playback sequencer -/

/-- `MainWindow::startPathAnimation`: records the path, resets the cursor and
clears the revealed sequence (the timer itself is not modelled). -/
def startPathAnimation (s : MainWindow) (path : List QPoint) : MainWindow :=
  { s with animatedPath := path, animationIndex := 0, currentPath := [] }

/-- `MainWindow::onAnimationStep`: does nothing once the cursor has consumed the
recorded path, otherwise pushes `animatedPath[animationIndex]` on `currentPath`
and increments the cursor. -/
def onAnimationStep (s : MainWindow) : MainWindow :=
  if s.animationIndex ≥ (s.animatedPath.length : Int) then s
  else
    match s.animatedPath[s.animationIndex.toNat]? with
    | some p =>
        { s with currentPath := s.currentPath ++ [p],
                 animationIndex := s.animationIndex + 1 }
    | none => s

/-- The test `animationIndex >= animatedPath.size()` with which `onAnimationStep`
detects that playback is over. -/
def playbackFinished (s : MainWindow) : Prop :=
  s.animationIndex ≥ (s.animatedPath.length : Int)

instance (s : MainWindow) : Decidable (playbackFinished s) :=
  inferInstanceAs (Decidable (s.animationIndex ≥ (s.animatedPath.length : Int)))

/-! ## A* search -/

/-- `MainWindow::heuristic`: the Manhattan distance `|dx| + |dy|`. -/
def heuristic (a b : QPoint) : Int :=
  (Int.natAbs (a.x - b.x) : Int) + (Int.natAbs (a.y - b.y) : Int)

/-- The `Node` record of the header. A `Node*` is represented by the key under
which the node is stored in `allNodes`: every node is created by one `new`, is
stored at `allNodes[pos]` at once, its `pos` never changes and no entry of
`allNodes` is ever replaced, so pointers and keys correspond one to one. The
`parent` pointer is therefore an optional key (`none` is `nullptr`). -/
structure Node where
  pos : QPoint
  g : Int
  h : Int
  f : Int
  parent : Option QPoint
deriving DecidableEq, Repr

/-- `allNodes.find(p)`: the node stored under key `p`, if any. -/
def findNode (allNodes : List Node) (p : QPoint) : Option Node :=
  allNodes.find? (fun n => decide (n.pos = p))

/-- Dereference of a `Node*`; the default record is returned for a key that has
no node, which never happens for a pointer taken from the open queue. -/
def deref (allNodes : List Node) (p : QPoint) : Node :=
  (findNode allNodes p).getD ⟨p, 0, 0, 0, none⟩

/-- In-place assignment to the fields of the node stored under key `p`. -/
def updateNode (allNodes : List Node) (p : QPoint) (n : Node) : List Node :=
  allNodes.map (fun m => if m.pos = p then n else m)

/-- `CompareNode`: `a->f > b->f`, read through the pointers at the moment of the
comparison. -/
def compareNode (allNodes : List Node) (a b : QPoint) : Bool :=
  decide ((deref allNodes a).f > (deref allNodes b).f)

/-- Exchange of the entries at two indices of the vector under the queue. -/
def swapAt (l : List QPoint) (i j : Nat) : List QPoint :=
  match l[i]?, l[j]? with
  | some a, some b => (l.set i b).set j a
  | _, _ => l

/-- The comparison `comp(first + i, first + j)` on the vector under the queue. -/
def compAt (allNodes : List Node) (l : List QPoint) (i j : Nat) : Bool :=
  match l[i]?, l[j]? with
  | some a, some b => compareNode allNodes a b
  | _, _ => false

/-- The loop of `std::__push_heap` (libstdc++), with the value that is being
placed kept in the hole: while the hole is below the top and the parent
compares as lower priority than the value, the parent moves down. -/
def pushHeapUp (allNodes : List Node) : Nat → List QPoint → Nat → List QPoint
  | 0, l, _ => l
  | fuel + 1, l, hole =>
    if hole > 0 ∧ compAt allNodes l ((hole - 1) / 2) hole = true then
      pushHeapUp allNodes fuel (swapAt l hole ((hole - 1) / 2)) ((hole - 1) / 2)
    else l

/-- `open.push(p)`: `push_back` followed by `std::push_heap`. -/
def pushHeap (allNodes : List Node) (l : List QPoint) (p : QPoint) : List QPoint :=
  pushHeapUp allNodes (l.length + 1) (l ++ [p]) l.length

/-- The first loop of `std::__adjust_heap` (libstdc++): the hole moves down to
a leaf, each time to the child that does not compare as lower priority than its
sibling; the last step handles a final node with a single child. Returns the
vector and the final hole index. -/
def adjustHeapDown (allNodes : List Node) (len : Nat) :
    Nat → List QPoint → Nat → List QPoint × Nat
  | 0, l, hole => (l, hole)
  | fuel + 1, l, hole =>
    if hole < (len - 1) / 2 then
      let sc := 2 * (hole + 1)
      let sc := if compAt allNodes l sc (sc - 1) = true then sc - 1 else sc
      adjustHeapDown allNodes len fuel (swapAt l hole sc) sc
    else if len % 2 = 0 ∧ hole = (len - 2) / 2 then
      (swapAt l hole (2 * (hole + 1) - 1), 2 * (hole + 1) - 1)
    else (l, hole)

/-- `open.pop()`: `std::pop_heap` followed by `pop_back`. The last element is
the value placed in the hole left by the top. -/
def popHeap (allNodes : List Node) (l : List QPoint) : List QPoint :=
  match l with
  | [] => []
  | _ :: rest =>
    match rest.getLast? with
    | none => []
    | some v =>
      let w := v :: rest.dropLast
      let r := adjustHeapDown allNodes w.length (w.length + 1) w 0
      pushHeapUp allNodes (r.2 + 1) r.1 r.2

/-- The local state of one `aStar` call: the vector under the priority queue
`open`, the map `allNodes`, and a log of the positions whose neighbours were
expanded (the log is not in the source and influences nothing). -/
structure Search where
  openQueue : List QPoint
  allNodes : List Node
  expanded : List QPoint

/-- The four directions in the order of the source. -/
def directions : List QPoint := [⟨0, 1⟩, ⟨1, 0⟩, ⟨0, -1⟩, ⟨-1, 0⟩]

/-- The body of the neighbour loop of `aStar` for one direction `d`. -/
def relax (s : MainWindow) (blocked : List QPoint) (current : QPoint)
    (st : Search) (d : QPoint) : Search :=
  let next : QPoint := ⟨(deref st.allNodes current).pos.x + d.x,
                        (deref st.allNodes current).pos.y + d.y⟩
  if next.x < 0 ∨ next.x ≥ s.cols ∨ next.y < 0 ∨ next.y ≥ s.rows ∨
      s.maze next.y next.x = 1 ∨ next ∈ blocked then st
  else
    let tentative_gScore := (deref st.allNodes current).g + 1
    match findNode st.allNodes next with
    | some neighborNode =>
      if tentative_gScore < neighborNode.g then
        let nodes := updateNode st.allNodes next
          { neighborNode with
            parent := some current
            g := tentative_gScore
            f := tentative_gScore + heuristic neighborNode.pos s.endPoint }
        { st with allNodes := nodes, openQueue := pushHeap nodes st.openQueue next }
      else st
    | none =>
      let nodes := st.allNodes ++
        [⟨next, tentative_gScore, heuristic next s.endPoint,
          tentative_gScore + heuristic next s.endPoint, some current⟩]
      { st with allNodes := nodes, openQueue := pushHeap nodes st.openQueue next }

/-- Records in the log that the neighbours of `current` are expanded. -/
def logExpansion (st : Search) (current : QPoint) : Search :=
  { st with expanded := st.expanded ++ [current] }

/-- The neighbour loop of `aStar` for the dequeued node `current`. -/
def expandNode (s : MainWindow) (blocked : List QPoint) (current : QPoint)
    (st : Search) : Search :=
  directions.foldl (relax s blocked current) (logExpansion st current)

/-- The `while (!open.empty())` loop of `aStar`. The result is `none` when the
fuel runs out, otherwise the final value of `endNode` (`none` is `nullptr`)
with the final state. -/
def aStarLoop (s : MainWindow) (blocked : List QPoint) :
    Nat → Search → Option (Option QPoint × Search)
  | 0, _ => none
  | fuel + 1, st =>
    match st.openQueue with
    | [] => some (none, st)
    | current :: _ =>
      let st1 : Search := { st with openQueue := popHeap st.allNodes st.openQueue }
      let stale : Bool :=
        match findNode st1.allNodes (deref st1.allNodes current).pos with
        | some it => decide ((deref st1.allNodes current).f > it.f)
        | none => false
      if stale then aStarLoop s blocked fuel st1
      else if (deref st1.allNodes current).pos = s.endPoint then some (some current, st1)
      else
        aStarLoop s blocked fuel (expandNode s blocked current st1)

/-- The reconstruction loop `while (node) { reversePath.push(node->pos); node =
node->parent; }`; the accumulator is the stack `reversePath`, top first. -/
def reversePathLoop (allNodes : List Node) :
    Nat → Option QPoint → List QPoint → Option (List QPoint)
  | _, none, acc => some acc
  | 0, some _, _ => none
  | fuel + 1, some node, acc =>
    reversePathLoop allNodes fuel (deref allNodes node).parent
      ((deref allNodes node).pos :: acc)

/-- The number of loop iterations granted to one `aStar` call. -/
def aStarFuel (s : MainWindow) : Nat :=
  2 * ((s.rows * s.cols).toNat * (s.rows * s.cols).toNat) + 2

/-- The state of `aStar` before the loop: the start node is created with `g = 0`
and pushed. -/
def aStarInit (s : MainWindow) : Search :=
  let nodes : List Node :=
    [⟨s.startPoint, 0, heuristic s.startPoint s.endPoint,
      0 + heuristic s.startPoint s.endPoint, none⟩]
  { openQueue := pushHeap nodes [] s.startPoint, allNodes := nodes, expanded := [] }

/-- `MainWindow::aStar(path, blocked)`: the returned `bool` with the final
content of `path` (untouched when no path is found), and `none` only if the
fuel ran out. Popping the stack `reversePath` into `path` yields the cells from
start to end. -/
def aStar (s : MainWindow) (path : List QPoint) (blocked : List QPoint) :
    Option (Bool × List QPoint) :=
  match aStarLoop s blocked (aStarFuel s) (aStarInit s) with
  | none => none
  | some (none, _) => some (false, path)
  | some (some endNode, st) =>
    match reversePathLoop st.allNodes (st.allNodes.length + 1) (some endNode) [] with
    | none => none
    | some reversePath => some (true, reversePath)

/-- A window whose grid is given by its rows of cells, for concrete inputs. -/
def windowOfRows (cells : List (List Int)) (startPoint endPoint : QPoint) : MainWindow :=
  { rows := cells.length
    cols := (cells.headD []).length
    pathIndex := -1
    animationIndex := 0
    startPoint := startPoint
    endPoint := endPoint
    maze := fun y x => if y < 0 ∨ x < 0 then 0 else ((cells.getD y.toNat []).getD x.toNat 0)
    blockedPoints := []
    currentPath := []
    allPaths := []
    animatedPath := [] }

/-! ## Path enumeration -/

/-- The body of the direction loop of `findAllPaths` for one direction `d`:
the three `continue` tests, then the recursive call `findAll` on the extended
path (the `bool` it returns is ignored by the source). -/
def tryDirection (s : MainWindow)
    (findAll : QPoint → List QPoint → List (List QPoint) → Option (Bool × List (List QPoint)))
    (start : QPoint) (currentVisitedPath : List QPoint)
    (paths : List (List QPoint)) (d : QPoint) : Option (List (List QPoint)) :=
  let next : QPoint := ⟨start.x + d.x, start.y + d.y⟩
  if next.x < 0 ∨ next.x ≥ s.cols ∨ next.y < 0 ∨ next.y ≥ s.rows then some paths
  else if s.maze next.y next.x = 1 then some paths
  else if next ∈ currentVisitedPath then some paths
  else (findAll next (currentVisitedPath ++ [next]) paths).map Prod.snd

/-- `MainWindow::findAllPaths(start, currentVisitedPath, paths)`. The result is
the returned `bool` with the final content of `paths`; `currentVisitedPath` is
restored by `removeLast` after every recursive call, so it is passed by value.
The first argument bounds the recursion depth; `none` means it was too small. -/
def findAllPaths (s : MainWindow) :
    Nat → QPoint → List QPoint → List (List QPoint) → Option (Bool × List (List QPoint))
  | 0, _, _, _ => none
  | fuel + 1, start, currentVisitedPath, paths =>
    if start = s.endPoint then some (true, paths ++ [currentVisitedPath])
    else if paths.length > 2000 then some (false, paths)
    else
      match directions.foldlM
        (tryDirection s (findAllPaths s fuel) start currentVisitedPath) paths with
      | none => none
      | some ps => some (!ps.isEmpty, ps)

/-- The enumeration as `on_btnNextPath_clicked` starts it: `paths` empty and the
path under construction equal to `[startPoint]`. A simple path has at most as
many cells as the grid, which bounds the recursion depth. -/
def enumeratePaths (s : MainWindow) : Option (Bool × List (List QPoint)) :=
  findAllPaths s (cellCount s + 2) s.startPoint [s.startPoint] []

/-! ## Loading a maze from text -/

/-- The assignment `maze[y][x] = v`. -/
def setCell (maze : Int → Int → Int) (y x v : Int) : Int → Int → Int :=
  fun y' x' => if y' = y ∧ x' = x then v else maze y' x'

/-- `QChar::isSpace` of the Qt library: the separator categories and the control
characters U+0009 to U+000D and U+0085. -/
def isSpace (c : Char) : Bool :=
  let n := c.toNat
  n = 0x20 ∨ (0x09 ≤ n ∧ n ≤ 0x0D) ∨ n = 0x85 ∨ n = 0xA0 ∨ n = 0x1680 ∨
    (0x2000 ≤ n ∧ n ≤ 0x200A) ∨ n = 0x2028 ∨ n = 0x2029 ∨ n = 0x202F ∨ n = 0x205F ∨
    n = 0x3000

/-- `QString::trimmed`: the line without its leading and trailing whitespace. -/
def trimmed (line : List Char) : List Char :=
  ((line.dropWhile isSpace).reverse.dropWhile isSpace).reverse

/-- The inner loop of the parser over the characters of line `i`, from column
`j` on: writes each cell and stops with `false` at the first character that is
neither `'0'` nor `'1'` (the cells written before stay written). -/
def parseRow (i : Int) : List Char → Int → (Int → Int → Int) → Bool × (Int → Int → Int)
  | [], _, maze => (true, maze)
  | ch :: rest, j, maze =>
    if ch = '0' then parseRow i rest (j + 1) (setCell maze i j 0)
    else if ch = '1' then parseRow i rest (j + 1) (setCell maze i j 1)
    else (false, maze)

/-- The outer loop of the parser over the lines, from line `i` on: stops with
`false` at the first line whose length differs from `c` or that holds an
illegal character. -/
def parseRows (c : Int) : List (List Char) → Int → (Int → Int → Int) →
    Bool × (Int → Int → Int)
  | [], _, maze => (true, maze)
  | line :: rest, i, maze =>
    if (line.length : Int) ≠ c then (false, maze)
    else
      match parseRow i line 0 maze with
      | (false, m) => (false, m)
      | (true, m) => parseRows c rest (i + 1) m

/-- The cells of the grid in the order of the scan loops `for i` / `for j`. -/
def scanCells (rows cols : Int) : List QPoint :=
  (List.range rows.toNat).flatMap
    (fun (i : Nat) => (List.range cols.toNat).map
      (fun (j : Nat) => (⟨(j : Int), (i : Int)⟩ : QPoint)))

/-- The start selection of the loader: the default start (0,0) unless it is a
wall, else the first passage found by the forward scan. -/
def selectStart (s : MainWindow) : Option QPoint :=
  if s.maze s.startPoint.y s.startPoint.x = 1 then
    (scanCells s.rows s.cols).find? (fun p => decide (s.maze p.y p.x = 0))
  else some s.startPoint

/-- The end selection of the loader: the default end `(cols-1, rows-1)` unless it
is a wall, else the first passage found by the backward scan. -/
def selectEnd (s : MainWindow) : Option QPoint :=
  if s.maze s.endPoint.y s.endPoint.x = 1 then
    (scanCells s.rows s.cols).reverse.find? (fun p => decide (s.maze p.y p.x = 0))
  else some s.endPoint

/-- The second half of `loadMazeFromFile`, after `rows` and `cols` are set: start
and end are chosen and the transient state is cleared; the load fails when a
scan finds no passage. -/
def placeEndpoints (s : MainWindow) : Bool × MainWindow :=
  match selectStart s with
  | none => (false, s)
  | some startPoint =>
    match selectEnd { s with startPoint := startPoint } with
    | none => (false, { s with startPoint := startPoint })
    | some endPoint =>
      (true, { s with startPoint := startPoint, endPoint := endPoint, blockedPoints := [],
                      currentPath := [], allPaths := [], pathIndex := -1,
                      animationIndex := 0 })

/-- `MainWindow::loadMazeFromFile` after the file has been opened: `content` is
the list of the lines read by `readLine`. Returns the `bool` of the source and
the state it leaves behind, also when the load fails half-way. -/
def loadMazeFromFile (s : MainWindow) (content : List (List Char)) : Bool × MainWindow :=
  let lines := content.map trimmed
  if lines.isEmpty then (false, s)
  else
    let r : Int := lines.length
    let c : Int := (lines.headD []).length
    if r > 100 ∨ c > 100 then (false, s)
    else
      match parseRows c lines 0 s.maze with
      | (false, m) => (false, { s with maze := m })
      | (true, m) =>
        placeEndpoints
          { s with maze := m, rows := r, cols := c, startPoint := ⟨0, 0⟩,
                   endPoint := ⟨c - 1, r - 1⟩ }

/-- A window in the state left by the constructor before any maze is stored, for
concrete inputs: every cell of the array holds `fill`. -/
def blankWindow (fill : Int) : MainWindow :=
  { rows := 21
    cols := 21
    pathIndex := -1
    animationIndex := 0
    startPoint := ⟨1, 1⟩
    endPoint := ⟨19, 19⟩
    maze := fun _ _ => fill
    blockedPoints := []
    currentPath := []
    allPaths := []
    animatedPath := [] }

/-! ## Maze generation -/

/-- The size forced by `generateMaze`: an even value is decremented, then a
value below 3 is raised to 3 (`%` of C++ is the truncating remainder). -/
def sanitizeSize (r : Int) : Int :=
  let r := if r.tmod 2 = 0 then r - 1 else r
  if r < 3 then 3 else r

/-- The two initial loops `maze[i][j] = 1` over the `rows × cols` grid. -/
def fillWalls (rows cols : Int) (maze : Int → Int → Int) : Int → Int → Int :=
  (scanCells rows cols).foldl (fun m p => setCell m p.y p.x 1) maze

/-- The start selection of `generateMaze`: (1,1), re-centred only if that cell
were outside the grid or had an even coordinate. -/
def chooseStart (rows cols : Int) : QPoint :=
  let startPoint : QPoint := ⟨1, 1⟩
  if startPoint.y ≥ rows ∨ startPoint.x ≥ cols ∨ startPoint.y.tmod 2 = 0 ∨
      startPoint.x.tmod 2 = 0 then
    let startPoint : QPoint :=
      ⟨((cols - 1).tdiv 2) * 2 + 1, ((rows - 1).tdiv 2) * 2 + 1⟩
    let startPoint : QPoint :=
      if startPoint.x ≥ cols then
        { startPoint with x := cols - (if cols.tmod 2 = 0 then 3 else 2) }
      else startPoint
    let startPoint : QPoint :=
      if startPoint.y ≥ rows then
        { startPoint with y := rows - (if rows.tmod 2 = 0 then 3 else 2) }
      else startPoint
    let startPoint : QPoint := if startPoint.x < 1 then { startPoint with x := 1 } else startPoint
    if startPoint.y < 1 then { startPoint with y := 1 } else startPoint
  else startPoint

/-- The local state of the Prim loop: the grid, the list `frontier`, the number
of random values drawn so far, and a log of every `frontier.append` (the log is
not in the source and influences nothing). -/
structure Prim where
  maze : Int → Int → Int
  frontier : List QPoint
  draws : Nat
  appended : List QPoint

/-- The lambda `addFrontier(y, x)`: a wall cell of the grid joins the frontier and
is tagged 2. -/
def addFrontier (rows cols : Int) (st : Prim) (y x : Int) : Prim :=
  if x ≥ 0 ∧ x < cols ∧ y ≥ 0 ∧ y < rows ∧ st.maze y x = 1 then
    { st with frontier := st.frontier ++ [⟨x, y⟩], maze := setCell st.maze y x 2,
              appended := st.appended ++ [⟨x, y⟩] }
  else st

/-- The four calls of `addFrontier` around the cell `(x, y)`. -/
def addFrontiers (rows cols : Int) (st : Prim) (y x : Int) : Prim :=
  addFrontier rows cols
    (addFrontier rows cols
      (addFrontier rows cols (addFrontier rows cols st y (x + 2)) y (x - 2)) (y + 2) x)
    (y - 2) x

/-- `QRandomGenerator::global()->bounded(n)`: the next value of the random
source `rnd`, reduced to the range `[0, n)`. -/
def bounded (rnd : Nat → Nat) (draws n : Nat) : Nat := rnd draws % n

/-- The distance-2 steps of the generator in the order of the source. -/
def directions2 : List QPoint := [⟨0, 2⟩, ⟨0, -2⟩, ⟨2, 0⟩, ⟨-2, 0⟩]

/-- The list `neighbors` of the loop body: the distance-2 neighbours of `f` that
are inside the grid and already passages. -/
def carvedNeighbors (rows cols : Int) (maze : Int → Int → Int) (f : QPoint) : List QPoint :=
  directions2.filterMap (fun d =>
    if f.x + d.x ≥ 0 ∧ f.x + d.x < cols ∧ f.y + d.y ≥ 0 ∧ f.y + d.y < rows ∧
        maze (f.y + d.y) (f.x + d.x) = 0 then
      some ⟨f.x + d.x, f.y + d.y⟩
    else none)

/-- One iteration of the frontier loop: a random frontier cell is removed; if it
has a carved neighbour, one is chosen at random, the cell and the wall between
the two are carved, and the walls at distance 2 join the frontier. -/
def primStep (rows cols : Int) (rnd : Nat → Nat) (st : Prim) : Prim :=
  let idx := bounded rnd st.draws st.frontier.length
  let f := st.frontier.getD idx ⟨0, 0⟩
  let st1 : Prim := { st with frontier := st.frontier.eraseIdx idx, draws := st.draws + 1 }
  let neighbors := carvedNeighbors rows cols st1.maze f
  if neighbors.isEmpty then st1
  else
    let n := neighbors.getD (bounded rnd st1.draws neighbors.length) ⟨0, 0⟩
    let wallX := (f.x + n.x).tdiv 2
    let wallY := (f.y + n.y).tdiv 2
    let st2 : Prim :=
      { st1 with maze := setCell (setCell st1.maze f.y f.x 0) wallY wallX 0,
                 draws := st1.draws + 1 }
    addFrontiers rows cols st2 f.y f.x

/-- The loop `while (!frontier.isEmpty())`; `none` means the fuel ran out. -/
def primLoop (rows cols : Int) (rnd : Nat → Nat) : Nat → Prim → Option Prim
  | 0, st => if st.frontier.isEmpty then some st else none
  | fuel + 1, st =>
    if st.frontier.isEmpty then some st
    else primLoop rows cols rnd fuel (primStep rows cols rnd st)

/-- The state of the generator when the frontier loop starts. -/
def primInit (rows cols : Int) (maze : Int → Int → Int) : Prim :=
  let startPoint := chooseStart rows cols
  addFrontiers rows cols
    { maze := setCell (fillWalls rows cols maze) startPoint.y startPoint.x 0,
      frontier := [], draws := 0, appended := [] }
    startPoint.y startPoint.x

/-- The generator up to the end of the frontier loop, for the sanitised size. -/
def primPhase (rows cols : Int) (rnd : Nat → Nat) (maze : Int → Int → Int) : Option Prim :=
  primLoop rows cols rnd (2 * (rows * cols).toNat + 5) (primInit rows cols maze)

/-- The end selection of `generateMaze`: the default `(cols-2, rows-2)`, else the
first passage of the backward scan, else the fallback with its clamps. Returns
the grid (changed only by the fallback) and the end point. -/
def chooseEnd (rows cols : Int) (maze : Int → Int → Int) : (Int → Int → Int) × QPoint :=
  let endPoint : QPoint := ⟨cols - 2, rows - 2⟩
  if endPoint.y ≥ rows ∨ endPoint.x ≥ cols ∨ endPoint.y < 0 ∨ endPoint.x < 0 ∨
      maze endPoint.y endPoint.x = 1 then
    match (scanCells rows cols).reverse.find? (fun p => decide (maze p.y p.x = 0)) with
    | some p => (maze, p)
    | none =>
      let r : (Int → Int → Int) × QPoint :=
        if endPoint.y < rows ∧ endPoint.x < cols ∧ endPoint.y ≥ 0 ∧ endPoint.x ≥ 0 then
          (setCell maze endPoint.y endPoint.x 0, endPoint)
        else
          (maze, ⟨cols - (if cols.tmod 2 = 0 then 3 else 2),
                  rows - (if rows.tmod 2 = 0 then 3 else 2)⟩)
      let e : QPoint := r.2
      let e : QPoint := if e.x < 1 then { e with x := 1 } else e
      let e : QPoint := if e.y < 1 then { e with y := 1 } else e
      let e : QPoint := if e.x ≥ cols then { e with x := cols - 2 } else e
      let e : QPoint := if e.y ≥ rows then { e with y := rows - 2 } else e
      (setCell r.1 e.y e.x 0, e)
  else (maze, endPoint)

/-- The two situations in which `generateMaze(r, c)` leaves defined behaviour:
`r--` or `c--` on the least `int`, and a sanitised size beyond the array
`maze[MAX_ROWS][MAX_COLS]`, which the fill loop would write through. -/
def outOfRange (r c : Int) : Prop :=
  (r.tmod 2 = 0 ∧ r ≤ -2147483648) ∨ (c.tmod 2 = 0 ∧ c ≤ -2147483648) ∨
    100 < sanitizeSize r ∨ 100 < sanitizeSize c

instance (r c : Int) : Decidable (outOfRange r c) :=
  inferInstanceAs (Decidable ((r.tmod 2 = 0 ∧ r ≤ -2147483648) ∨
    (c.tmod 2 = 0 ∧ c ≤ -2147483648) ∨ 100 < sanitizeSize r ∨ 100 < sanitizeSize c))

/-- `MainWindow::generateMaze(r, c)` with the random source `rnd`. There is no
result (`none`) when the call leaves defined behaviour (`outOfRange`) or when
the fuel of the frontier loop runs out. -/
def generateMaze (s : MainWindow) (r c : Int) (rnd : Nat → Nat) : Option MainWindow :=
  if outOfRange r c then none
  else
    let rows := sanitizeSize r
    let cols := sanitizeSize c
    match primPhase rows cols rnd s.maze with
    | none => none
    | some st =>
      let e := chooseEnd rows cols st.maze
      some { s with
        rows := rows
        cols := cols
        startPoint := chooseStart rows cols
        endPoint := e.2
        maze := setCell e.1 e.2.y e.2.x 0
        blockedPoints := []
        currentPath := []
        allPaths := []
        pathIndex := -1
        animationIndex := 0 }

/-! ## Concrete inputs -/

/-- A 7×7 grid on which the in-place update of queued nodes makes `aStar` miss
the shortest route from (4,0) to (2,4). -/
def detourWindow : MainWindow :=
  windowOfRows
    [[0, 1, 0, 0, 0, 0, 0],
     [0, 0, 1, 0, 0, 0, 0],
     [1, 0, 0, 0, 1, 0, 1],
     [0, 0, 1, 0, 0, 0, 0],
     [0, 0, 0, 1, 0, 0, 0],
     [0, 0, 0, 0, 0, 0, 0],
     [1, 0, 0, 0, 1, 0, 0]] ⟨4, 0⟩ ⟨2, 4⟩

/-- The 5×5 grid that is open except for a wall column at `x = 2` with a single
gap at (2,2), searched from (0,0) to (4,4). -/
def gapWindow : MainWindow :=
  windowOfRows
    [[0, 0, 1, 0, 0],
     [0, 0, 1, 0, 0],
     [0, 0, 0, 0, 0],
     [0, 0, 1, 0, 0],
     [0, 0, 1, 0, 0]] ⟨0, 0⟩ ⟨4, 4⟩

/-- A 3×3 grid split by a solid wall column, start and end on opposite sides. -/
def splitWindow : MainWindow :=
  windowOfRows
    [[0, 1, 0],
     [0, 1, 0],
     [0, 1, 0]] ⟨0, 0⟩ ⟨2, 2⟩

/-- A 1×2 open grid searched from (0,0) to (1,0). -/
def pairWindow : MainWindow :=
  windowOfRows [[0, 0]] ⟨0, 0⟩ ⟨1, 0⟩

/-- A 4×4 grid with one wall on which `aStar` from (3,3) to (0,0) expands the
cell (0,3) twice. -/
def reexpandWindow : MainWindow :=
  windowOfRows
    [[0, 0, 0, 0],
     [1, 0, 0, 0],
     [0, 0, 0, 0],
     [0, 0, 0, 0]] ⟨3, 3⟩ ⟨0, 0⟩

/-! ## Specification vocabulary -/

/-- The cell `p` lies inside the `rows × cols` grid. -/
def inBounds (s : MainWindow) (p : QPoint) : Prop :=
  0 ≤ p.x ∧ p.x < s.cols ∧ 0 ≤ p.y ∧ p.y < s.rows

instance (s : MainWindow) (p : QPoint) : Decidable (inBounds s p) :=
  inferInstanceAs (Decidable (0 ≤ p.x ∧ p.x < s.cols ∧ 0 ≤ p.y ∧ p.y < s.rows))

/-- A cell that a search may enter: in bounds, not a wall, not blocked. -/
def walkable (s : MainWindow) (blocked : List QPoint) (p : QPoint) : Prop :=
  inBounds s p ∧ s.maze p.y p.x ≠ 1 ∧ p ∉ blocked

instance (s : MainWindow) (blocked : List QPoint) (p : QPoint) :
    Decidable (walkable s blocked p) :=
  inferInstanceAs (Decidable (inBounds s p ∧ s.maze p.y p.x ≠ 1 ∧ p ∉ blocked))

/-- Two cells differ by exactly one step in exactly one coordinate. -/
def adjacent (a b : QPoint) : Prop :=
  (a.x = b.x ∧ Int.natAbs (a.y - b.y) = 1) ∨ (a.y = b.y ∧ Int.natAbs (a.x - b.x) = 1)

instance (a b : QPoint) : Decidable (adjacent a b) :=
  inferInstanceAs (Decidable ((a.x = b.x ∧ Int.natAbs (a.y - b.y) = 1) ∨
    (a.y = b.y ∧ Int.natAbs (a.x - b.x) = 1)))

/-- A route from `a` to `b`: a sequence of cells that starts at `a`, ends at
`b`, moves by one 4-neighbour step at a time and stays on walkable cells. -/
def isRoute (s : MainWindow) (blocked : List QPoint) (a b : QPoint)
    (route : List QPoint) : Prop :=
  route.head? = some a ∧ route.getLast? = some b ∧ route.Chain' adjacent ∧
    ∀ p ∈ route, walkable s blocked p

instance (s : MainWindow) (blocked : List QPoint) (a b : QPoint) (route : List QPoint) :
    Decidable (isRoute s blocked a b route) :=
  inferInstanceAs (Decidable (route.head? = some a ∧ route.getLast? = some b ∧
    route.Chain' adjacent ∧ ∀ p ∈ route, walkable s blocked p))

/-- The state after `relax` has lowered the cost of the stored node `nb` of
`next` in place and pushed its pointer again. -/
def updatedState (st : Search) (current next : QPoint) (nb : Node) (gNew fNew : Int) :
    Search :=
  { st with
    allNodes := updateNode st.allNodes next { nb with parent := some current, g := gNew, f := fNew }
    openQueue := pushHeap (updateNode st.allNodes next
      { nb with parent := some current, g := gNew, f := fNew }) st.openQueue next }

/-- The state after `relax` has created and pushed a node for `next`. -/
def createdState (st : Search) (current next : QPoint) (gNew hNew fNew : Int) : Search :=
  { st with
    allNodes := st.allNodes ++ [⟨next, gNew, hNew, fNew, some current⟩]
    openQueue := pushHeap (st.allNodes ++ [⟨next, gNew, hNew, fNew, some current⟩])
      st.openQueue next }

/-- The state after `open.pop()`. -/
def popped (st : Search) : Search :=
  { st with openQueue := popHeap st.allNodes st.openQueue }

/-- One iteration of the loop of `aStar` that dequeues a node other than the
end node and expands it. -/
def loopStep (s : MainWindow) (blocked : List QPoint) (st st' : Search) : Prop :=
  ∃ current rest, st.openQueue = current :: rest ∧ current ≠ s.endPoint ∧
    st' = expandNode s blocked current (popped st)

/-- The states that the loop of `aStar` reaches from `st`. -/
def loopReach (s : MainWindow) (blocked : List QPoint) (st st' : Search) : Prop :=
  Relation.ReflTransGen (loopStep s blocked) st st'

/-- What holds of the node `n` stored under key `q`: its cost is non-negative
and below the number of nodes, only the start node has no predecessor, and a
predecessor is a stored node that is one step away and at least one cheaper. -/
structure NodeOk (s : MainWindow) (blocked : List QPoint) (allNodes : List Node)
    (q : QPoint) (n : Node) : Prop where
  g_nonneg : 0 ≤ n.g
  g_lt : n.g < allNodes.length
  root : n.parent = none → q = s.startPoint
  link : ∀ p, n.parent = some p →
    ∃ m, findNode allNodes p = some m ∧ m.g + 1 ≤ n.g ∧ adjacent p q ∧ walkable s blocked q

/-- The invariant of the loop of `aStar` behind the reconstruction of the path. -/
structure SearchInv (s : MainWindow) (blocked : List QPoint) (st : Search) : Prop where
  start : ∃ n, findNode st.allNodes s.startPoint = some n ∧ n.g = 0 ∧ n.parent = none
  nodes : ∀ q n, findNode st.allNodes q = some n → NodeOk s blocked st.allNodes q n
  openKeys : ∀ p ∈ st.openQueue, ∃ n, findNode st.allNodes p = some n

/-- All cells of the `rows × cols` grid, row by row. -/
def allCells (s : MainWindow) : List QPoint :=
  (List.range s.rows.toNat).flatMap
    (fun (y : Nat) => (List.range s.cols.toNat).map
      (fun (x : Nat) => (⟨(x : Int), (y : Int)⟩ : QPoint)))

/-- The potential that bounds the number of `push` operations of one `aStar`
call: every stored node contributes `K - g`. -/
def potential (K : Int) (allNodes : List Node) : Int :=
  (allNodes.map (fun n => K - n.g)).sum

/-- The measure that decreases with every iteration of the loop of `aStar`. -/
def searchMeasure (s : MainWindow) (st : Search) : Int :=
  (st.openQueue.length : Int) +
    2 * ((cellCount s : Int) * (cellCount s : Int) - potential (cellCount s) st.allNodes)

/-- The invariant of the loop of `aStar` behind termination: the keys of
`allNodes` are distinct cells of the grid. -/
structure TermInv (s : MainWindow) (blocked : List QPoint) (st : Search) : Prop where
  inv : SearchInv s blocked st
  nodup : (st.allNodes.map Node.pos).Nodup
  inb : ∀ n ∈ st.allNodes, inBounds s n.pos

/-- The cell `q` has a node in `allNodes`. -/
def hasNode (st : Search) (q : QPoint) : Prop :=
  ∃ n, findNode st.allNodes q = some n

/-- Every walkable neighbour of `q` has a node. -/
def closedAt (s : MainWindow) (blocked : List QPoint) (st : Search) (q : QPoint) : Prop :=
  ∀ d ∈ directions, walkable s blocked ⟨q.x + d.x, q.y + d.y⟩ →
    hasNode st ⟨q.x + d.x, q.y + d.y⟩

/-- The invariant of the loop of `aStar` behind completeness: a stored cell is
still queued or has all its walkable neighbours stored, and the end point is
queued as soon as it is stored. -/
structure CompInv (s : MainWindow) (blocked : List QPoint) (st : Search) : Prop where
  frontier : ∀ q, hasNode st q → q ∈ st.openQueue ∨ closedAt s blocked st q
  endQueued : hasNode st s.endPoint → s.endPoint ∈ st.openQueue

/-- A cell that the enumeration may step on: in bounds and not a wall. -/
def passable (s : MainWindow) (p : QPoint) : Prop :=
  inBounds s p ∧ s.maze p.y p.x ≠ 1

instance (s : MainWindow) (p : QPoint) : Decidable (passable s p) :=
  inferInstanceAs (Decidable (inBounds s p ∧ s.maze p.y p.x ≠ 1))

/-- A path under construction that leads from the start point to `last`: it
repeats no cell, moves by one 4-neighbour step at a time, and every cell after
the first is passable. -/
structure PathTo (s : MainWindow) (last : QPoint) (path : List QPoint) : Prop where
  head : path.head? = some s.startPoint
  last : path.getLast? = some last
  nodup : path.Nodup
  chain : path.Chain' adjacent
  cells : ∀ c ∈ path.tail, passable s c

/-- The continuations of the path under construction in one direction, for the
enumeration without a cap. -/
def extendTowards (s : MainWindow) (continuations : QPoint → List QPoint → List (List QPoint))
    (start : QPoint) (cur : List QPoint) (d : QPoint) : List (List QPoint) :=
  if passable s ⟨start.x + d.x, start.y + d.y⟩ ∧
      (⟨start.x + d.x, start.y + d.y⟩ : QPoint) ∉ cur then
    continuations ⟨start.x + d.x, start.y + d.y⟩ (cur ++ [⟨start.x + d.x, start.y + d.y⟩])
  else []

/-- The specification of the enumeration: all simple continuations of `cur` from
`start` to the end point, in the order of the depth-first search and without
any cap on their number. -/
def simplePathsFrom (s : MainWindow) : Nat → QPoint → List QPoint → List (List QPoint)
  | 0, _, _ => []
  | fuel + 1, start, cur =>
    if start = s.endPoint then [cur]
    else directions.flatMap (extendTowards s (simplePathsFrom s fuel) start cur)

/-- A fully open grid of 2 rows and 12 columns, enumerated from (0,0) to (11,1);
it has 2048 routes that never step to the left. -/
def ladderWindow : MainWindow :=
  { rows := 2
    cols := 12
    pathIndex := -1
    animationIndex := 0
    startPoint := ⟨0, 0⟩
    endPoint := ⟨11, 1⟩
    maze := fun _ _ => 0
    blockedPoints := []
    currentPath := []
    allPaths := []
    animatedPath := [] }

/-! ## Lemmas: the priority queue -/

theorem set_getElem_same (l : List QPoint) (i : Nat) (h : i < l.length) :
    l.set i l[i] = l := by
  induction l generalizing i with
  | nil => simp at h
  | cons a t ih =>
    cases i with
    | zero => rfl
    | succ k =>
      simp only [List.set_cons_succ, List.getElem_cons_succ]
      rw [ih k (by simpa using h)]

theorem swapAt_perm (l : List QPoint) (i j : Nat) : (swapAt l i j).Perm l := by
  unfold swapAt
  cases hi : l[i]? with
  | none => exact List.Perm.refl _
  | some a =>
    cases hj : l[j]? with
    | none => exact List.Perm.refl _
    | some b =>
      obtain ⟨hi', rfl⟩ := List.getElem?_eq_some.1 hi
      obtain ⟨hj', rfl⟩ := List.getElem?_eq_some.1 hj
      show ((l.set i l[j]).set j l[i]).Perm l
      rw [List.perm_iff_count]
      intro c
      by_cases hij : i = j
      · subst hij
        rw [List.set_set, set_getElem_same l i hi']
      · have hlen : j < (l.set i l[j]).length := by simpa using hj'
        rw [List.count_set _ _ _ _ hlen, List.count_set _ _ _ _ hi']
        have hget : (l.set i l[j])[j] = l[j] := by
          rw [List.getElem_set_ne hij]
        rw [hget]
        have h1 : (l[i] == c) = true → 0 < List.count c l := by
          intro h
          have : l[i] = c := by simpa using h
          exact List.count_pos_iff.2 (this ▸ List.getElem_mem _)
        by_cases hc1 : (l[i] == c) = true
        · have := h1 hc1
          by_cases hc2 : (l[j] == c) = true
          · simp only [hc1, hc2, if_true]; omega
          · simp only [hc1, hc2, if_true]; simp; omega
        · by_cases hc2 : (l[j] == c) = true
          · simp only [hc1, hc2, if_true]; simp
          · simp only [hc1, hc2]; simp

theorem swapAt_length (l : List QPoint) (i j : Nat) : (swapAt l i j).length = l.length :=
  (swapAt_perm l i j).length_eq

theorem pushHeapUp_perm (allNodes : List Node) (fuel : Nat) (l : List QPoint) (hole : Nat) :
    (pushHeapUp allNodes fuel l hole).Perm l := by
  induction fuel generalizing l hole with
  | zero => exact List.Perm.refl _
  | succ n ih =>
    unfold pushHeapUp
    split
    · exact (ih _ _).trans (swapAt_perm _ _ _)
    · exact List.Perm.refl _

theorem adjustHeapDown_perm (allNodes : List Node) (len fuel : Nat) (l : List QPoint)
    (hole : Nat) : (adjustHeapDown allNodes len fuel l hole).1.Perm l := by
  induction fuel generalizing l hole with
  | zero => exact List.Perm.refl _
  | succ n ih =>
    unfold adjustHeapDown
    split
    · exact (ih _ _).trans (swapAt_perm _ _ _)
    · split
      · exact swapAt_perm _ _ _
      · exact List.Perm.refl _

theorem pushHeap_perm (allNodes : List Node) (l : List QPoint) (p : QPoint) :
    (pushHeap allNodes l p).Perm (p :: l) := by
  unfold pushHeap
  exact (pushHeapUp_perm _ _ _ _).trans (List.perm_append_singleton p l)

theorem popHeap_perm (allNodes : List Node) (top : QPoint) (rest : List QPoint) :
    (popHeap allNodes (top :: rest)).Perm rest := by
  cases h : rest.getLast? with
  | none =>
    have : rest = [] := by simpa using h
    subst this
    exact List.Perm.refl _
  | some v =>
    simp only [popHeap, h]
    refine (pushHeapUp_perm _ _ _ _).trans ((adjustHeapDown_perm _ _ _ _ _).trans ?_)
    have hne : rest ≠ [] := by
      intro h0; subst h0; simp at h
    have hv : rest.getLast hne = v := by
      have := List.getLast?_eq_getLast rest hne
      rw [this] at h
      exact Option.some.inj h
    have hrest : rest = rest.dropLast ++ [v] := by
      rw [← hv]; exact (List.dropLast_append_getLast hne).symm
    calc (v :: rest.dropLast).Perm (rest.dropLast ++ [v]) :=
          (List.perm_append_singleton v rest.dropLast).symm
      _ = rest := hrest.symm

theorem mem_pushHeap (allNodes : List Node) (l : List QPoint) (p q : QPoint) :
    q ∈ pushHeap allNodes l p ↔ q = p ∨ q ∈ l := by
  rw [(pushHeap_perm allNodes l p).mem_iff]; simp

theorem pushHeap_length (allNodes : List Node) (l : List QPoint) (p : QPoint) :
    (pushHeap allNodes l p).length = l.length + 1 := by
  rw [(pushHeap_perm allNodes l p).length_eq]; simp

theorem mem_popHeap (allNodes : List Node) (top : QPoint) (rest : List QPoint) (q : QPoint) :
    q ∈ popHeap allNodes (top :: rest) ↔ q ∈ rest :=
  (popHeap_perm allNodes top rest).mem_iff

theorem popHeap_length (allNodes : List Node) (top : QPoint) (rest : List QPoint) :
    (popHeap allNodes (top :: rest)).length = rest.length :=
  (popHeap_perm allNodes top rest).length_eq

/-! ## Lemmas: the node map -/

theorem findNode_pos {allNodes : List Node} {p : QPoint} {n : Node}
    (h : findNode allNodes p = some n) : n.pos = p := by
  have := List.find?_some h
  simpa using this

theorem deref_pos (allNodes : List Node) (p : QPoint) : (deref allNodes p).pos = p := by
  unfold deref
  cases h : findNode allNodes p with
  | none => rfl
  | some n => exact findNode_pos h

theorem deref_of_findNode {allNodes : List Node} {p : QPoint} {n : Node}
    (h : findNode allNodes p = some n) : deref allNodes p = n := by
  simp [deref, h]

theorem findNode_append (allNodes : List Node) (n : Node) (q : QPoint) :
    findNode (allNodes ++ [n]) q =
      (findNode allNodes q).or (if n.pos = q then some n else none) := by
  unfold findNode
  rw [List.find?_append]
  congr 1
  by_cases h : n.pos = q <;> simp [h]

theorem findNode_cons (m : Node) (t : List Node) (q : QPoint) :
    findNode (m :: t) q = if m.pos = q then some m else findNode t q := by
  unfold findNode
  rw [List.find?_cons]
  by_cases h : m.pos = q <;> simp [h]

theorem updateNode_cons (m : Node) (t : List Node) (p : QPoint) (n : Node) :
    updateNode (m :: t) p n = (if m.pos = p then n else m) :: updateNode t p n := rfl

theorem findNode_updateNode (allNodes : List Node) (p : QPoint) (n : Node)
    (hn : n.pos = p) (q : QPoint) :
    findNode (updateNode allNodes p n) q =
      if q = p then (findNode allNodes p).map (fun _ => n) else findNode allNodes q := by
  induction allNodes with
  | nil => simp [findNode, updateNode]
  | cons m t ih =>
    rw [updateNode_cons, findNode_cons, ih]
    by_cases hm : m.pos = p
    · by_cases hq : q = p
      · subst hq
        rw [findNode_cons]
        simp [hm, hn]
      · have h1 : ¬ n.pos = q := by rw [hn]; exact fun h => hq h.symm
        have h2 : ¬ m.pos = q := by rw [hm]; exact fun h => hq h.symm
        have h3 : ¬ p = q := fun h => hq h.symm
        rw [findNode_cons m t q]
        simp [hm, h1, h3, hq]
    · by_cases hq : q = p
      · subst hq
        rw [findNode_cons]
        simp [hm]
      · rw [findNode_cons m t q]
        simp [hm, hq]

theorem updateNode_length (allNodes : List Node) (p : QPoint) (n : Node) :
    (updateNode allNodes p n).length = allNodes.length := by
  simp [updateNode]

/-- The staleness test of the loop compares a node with itself. -/
theorem stale_test_false (allNodes : List Node) (current : QPoint) :
    (match findNode allNodes current with
      | some it => decide ((deref allNodes current).f > it.f)
      | none => false) = false := by
  cases h : findNode allNodes current with
  | none => rfl
  | some n => simp [deref_of_findNode h]

/-! ## Lemmas: the shape of the A* loop -/

theorem aStarLoop_succ (s : MainWindow) (blocked : List QPoint) (fuel : Nat) (st : Search) :
    aStarLoop s blocked (fuel + 1) st =
      match st.openQueue with
      | [] => some (none, st)
      | current :: _ =>
        if current = s.endPoint then some (some current, popped st)
        else aStarLoop s blocked fuel (expandNode s blocked current (popped st)) := by
  rw [aStarLoop]
  cases h : st.openQueue with
  | nil => rfl
  | cons current rest =>
    simp only [deref_pos, stale_test_false, popped, h, Bool.false_eq_true, if_false]

theorem aStarLoop_result (s : MainWindow) (blocked : List QPoint) :
    ∀ (fuel : Nat) (st : Search) (r : Option QPoint) (st' : Search),
      aStarLoop s blocked fuel st = some (r, st') →
      ∃ st0, loopReach s blocked st st0 ∧
        ((r = none ∧ st0.openQueue = [] ∧ st' = st0) ∨
         (∃ rest, r = some s.endPoint ∧ st0.openQueue = s.endPoint :: rest ∧
            st' = popped st0)) := by
  intro fuel
  induction fuel with
  | zero => intro st r st' h; simp [aStarLoop] at h
  | succ n ih =>
    intro st r st' h
    rw [aStarLoop_succ] at h
    cases hq : st.openQueue with
    | nil =>
      rw [hq] at h
      simp only [Option.some.injEq, Prod.mk.injEq] at h
      exact ⟨st, Relation.ReflTransGen.refl, Or.inl ⟨h.1.symm, hq, h.2.symm⟩⟩
    | cons current rest =>
      rw [hq] at h
      simp only at h
      by_cases hc : current = s.endPoint
      · rw [if_pos hc] at h
        simp only [Option.some.injEq, Prod.mk.injEq] at h
        refine ⟨st, Relation.ReflTransGen.refl, Or.inr ⟨rest, ?_, ?_, h.2.symm⟩⟩
        · rw [← h.1, hc]
        · rw [hq, hc]
      · rw [if_neg hc] at h
        obtain ⟨st0, hreach, hres⟩ := ih _ r st' h
        exact ⟨st0, Relation.ReflTransGen.head ⟨current, rest, hq, hc, rfl⟩ hreach, hres⟩

theorem loopReach_induction (s : MainWindow) (blocked : List QPoint) (I : Search → Prop)
    (hstep : ∀ st st', I st → loopStep s blocked st st' → I st')
    (st st' : Search) (h0 : I st) (h : loopReach s blocked st st') : I st' := by
  induction h with
  | refl => exact h0
  | tail _ hs ih => exact hstep _ _ ih hs

/-! ## Lemmas: the invariant of the A* loop -/

theorem adjacent_direction (c d : QPoint) (hd : d ∈ directions) :
    adjacent c ⟨c.x + d.x, c.y + d.y⟩ := by
  simp only [directions, List.mem_cons, List.mem_singleton, List.not_mem_nil, or_false] at hd
  rcases hd with rfl | rfl | rfl | rfl <;> simp [adjacent]

theorem direction_ne (c d : QPoint) (hd : d ∈ directions) :
    (⟨c.x + d.x, c.y + d.y⟩ : QPoint) ≠ c := by
  simp only [directions, List.mem_cons, List.mem_singleton, List.not_mem_nil, or_false] at hd
  intro h
  have hx := congrArg QPoint.x h
  have hy := congrArg QPoint.y h
  rcases hd with rfl | rfl | rfl | rfl <;> simp at hx hy

theorem walkable_of_not_guard (s : MainWindow) (blocked : List QPoint) (next : QPoint)
    (h : ¬ (next.x < 0 ∨ next.x ≥ s.cols ∨ next.y < 0 ∨ next.y ≥ s.rows ∨
      s.maze next.y next.x = 1 ∨ next ∈ blocked)) : walkable s blocked next := by
  simp only [not_or, not_lt, ge_iff_le, not_le] at h
  exact ⟨⟨h.1, h.2.1, h.2.2.1, h.2.2.2.1⟩, h.2.2.2.2.1, h.2.2.2.2.2⟩

theorem guard_of_not_walkable (s : MainWindow) (blocked : List QPoint) (next : QPoint)
    (h : ¬ walkable s blocked next) :
    (next.x < 0 ∨ next.x ≥ s.cols ∨ next.y < 0 ∨ next.y ≥ s.rows ∨
      s.maze next.y next.x = 1 ∨ next ∈ blocked) := by
  by_contra hg
  exact h (walkable_of_not_guard s blocked next hg)

/-- The three outcomes of `relax` for the neighbour `next` of `current`. -/
theorem relax_cases (s : MainWindow) (blocked : List QPoint) (current : QPoint)
    (st : Search) (d : QPoint) :
    (relax s blocked current st d = st ∧
      (walkable s blocked ⟨current.x + d.x, current.y + d.y⟩ →
        ∃ nb, findNode st.allNodes ⟨current.x + d.x, current.y + d.y⟩ = some nb)) ∨
    (walkable s blocked ⟨current.x + d.x, current.y + d.y⟩ ∧
      ∃ nb fNew, findNode st.allNodes ⟨current.x + d.x, current.y + d.y⟩ = some nb ∧
        (deref st.allNodes current).g + 1 < nb.g ∧
        relax s blocked current st d =
          updatedState st current ⟨current.x + d.x, current.y + d.y⟩ nb
            ((deref st.allNodes current).g + 1) fNew) ∨
    (walkable s blocked ⟨current.x + d.x, current.y + d.y⟩ ∧
      findNode st.allNodes ⟨current.x + d.x, current.y + d.y⟩ = none ∧
      ∃ hNew fNew, relax s blocked current st d =
        createdState st current ⟨current.x + d.x, current.y + d.y⟩
          ((deref st.allNodes current).g + 1) hNew fNew) := by
  unfold relax
  simp only [deref_pos]
  split
  · rename_i hg
    refine Or.inl ⟨rfl, fun hw => ?_⟩
    exfalso
    obtain ⟨⟨h1, h2, h3, h4⟩, h5, h6⟩ := hw
    simp only at h1 h2 h3 h4 h5 h6
    rcases hg with h | h | h | h | h | h
    · omega
    · omega
    · omega
    · omega
    · exact h5 h
    · exact h6 h
  · rename_i hg
    have hw := walkable_of_not_guard s blocked ⟨current.x + d.x, current.y + d.y⟩ hg
    split
    · rename_i nb hnb
      split
      · rename_i hlt
        exact Or.inr (Or.inl ⟨hw, nb, _, hnb, hlt, rfl⟩)
      · exact Or.inl ⟨rfl, fun _ => ⟨nb, hnb⟩⟩
    · rename_i hnone
      exact Or.inr (Or.inr ⟨hw, hnone, _, _, rfl⟩)

theorem findNode_append_of_some {allNodes : List Node} {q : QPoint} {m : Node} (n : Node)
    (h : findNode allNodes q = some m) : findNode (allNodes ++ [n]) q = some m := by
  rw [findNode_append, h]; rfl

theorem findNode_append_of_none {allNodes : List Node} {q : QPoint} (n : Node)
    (h : findNode allNodes q = none) :
    findNode (allNodes ++ [n]) q = if n.pos = q then some n else none := by
  rw [findNode_append, h]; rfl

theorem findNode_updateNode_of_some {allNodes : List Node} {p : QPoint} {nb : Node}
    (n : Node) (hn : n.pos = p) (h : findNode allNodes p = some nb) (q : QPoint) :
    findNode (updateNode allNodes p n) q = if q = p then some n else findNode allNodes q := by
  rw [findNode_updateNode allNodes p n hn q, h]; rfl

theorem findNode_update_fields {allNodes : List Node} {p : QPoint} {nb : Node}
    (gNew fNew : Int) (par : Option QPoint) (h : findNode allNodes p = some nb) (q : QPoint) :
    findNode (updateNode allNodes p { nb with parent := par, g := gNew, f := fNew }) q =
      if q = p then some { nb with parent := par, g := gNew, f := fNew }
      else findNode allNodes q :=
  findNode_updateNode_of_some
    ({ nb with parent := par, g := gNew, f := fNew } : Node)
    (show nb.pos = p from findNode_pos h) h q

theorem searchInv_update (s : MainWindow) (blocked : List QPoint) (current next : QPoint)
    (st : Search) (c nb : Node) (gNew fNew : Int)
    (hI : SearchInv s blocked st)
    (hc : findNode st.allNodes current = some c)
    (hnb : findNode st.allNodes next = some nb)
    (hg : gNew = c.g + 1) (hlt : gNew < nb.g)
    (hne : next ≠ current) (hadj : adjacent current next) (hw : walkable s blocked next) :
    SearchInv s blocked (updatedState st current next nb gNew fNew) := by
  unfold updatedState
  have hpos : ({ nb with parent := some current, g := gNew, f := fNew } : Node).pos = next := by
    show nb.pos = next
    exact findNode_pos hnb
  have hfind := findNode_updateNode_of_some
    ({ nb with parent := some current, g := gNew, f := fNew } : Node) hpos hnb
  have hcok := hI.nodes current c hc
  obtain ⟨n0, hn0, hn0g, hn0p⟩ := hI.start
  have hstart : s.startPoint ≠ next := by
    intro h
    rw [h, hnb] at hn0
    have : nb.g = 0 := by rw [Option.some.inj hn0]; exact hn0g
    have := hcok.g_nonneg
    omega
  refine ⟨⟨n0, ?_, hn0g, hn0p⟩, ?_, ?_⟩
  · show findNode (updateNode _ _ _) _ = _
    rw [hfind, if_neg hstart]; exact hn0
  · intro q n hq
    change findNode (updateNode _ _ _) _ = _ at hq
    rw [hfind] at hq
    show NodeOk s blocked (updateNode _ _ _) q n
    by_cases hqn : q = next
    · rw [if_pos hqn] at hq
      have hn : n = { nb with parent := some current, g := gNew, f := fNew } :=
        (Option.some.inj hq).symm
      subst hn
      have hnbok := hI.nodes next nb hnb
      refine ⟨?_, ?_, ?_, ?_⟩
      · show 0 ≤ gNew
        have := hcok.g_nonneg; omega
      · show gNew < ((updateNode _ _ _).length : Int)
        rw [updateNode_length]
        have := hnbok.g_lt; omega
      · intro h; cases h
      · intro p hp
        have hp' : p = current := (Option.some.inj hp).symm
        subst hp'
        refine ⟨c, ?_, ?_, ?_, ?_⟩
        · rw [hfind, if_neg (fun h => hne h.symm)]; exact hc
        · show c.g + 1 ≤ gNew
          omega
        · rw [hqn]; exact hadj
        · rw [hqn]; exact hw
    · rw [if_neg hqn] at hq
      have hok := hI.nodes q n hq
      refine ⟨hok.g_nonneg, ?_, hok.root, ?_⟩
      · rw [updateNode_length]; exact hok.g_lt
      · intro p hp
        obtain ⟨m, hm, hmg, hadj', hw'⟩ := hok.link p hp
        by_cases hpn : p = next
        · refine ⟨{ nb with parent := some current, g := gNew, f := fNew }, ?_, ?_, hadj', hw'⟩
          · rw [hfind, if_pos hpn]
          · show gNew + 1 ≤ n.g
            rw [hpn, hnb] at hm
            have : nb = m := Option.some.inj hm
            subst this
            omega
        · exact ⟨m, by rw [hfind, if_neg hpn]; exact hm, hmg, hadj', hw'⟩
  · intro p hp
    change p ∈ pushHeap _ _ _ at hp
    rw [mem_pushHeap] at hp
    show ∃ n, findNode (updateNode _ _ _) p = some n
    rw [hfind]
    by_cases hpn : p = next
    · exact ⟨_, by rw [if_pos hpn]⟩
    · rw [if_neg hpn]
      rcases hp with h | h
      · exact absurd h hpn
      · exact hI.openKeys p h

theorem searchInv_create (s : MainWindow) (blocked : List QPoint) (current next : QPoint)
    (st : Search) (c : Node) (gNew hNew fNew : Int)
    (hI : SearchInv s blocked st)
    (hc : findNode st.allNodes current = some c)
    (hnone : findNode st.allNodes next = none)
    (hg : gNew = c.g + 1)
    (hadj : adjacent current next) (hw : walkable s blocked next) :
    SearchInv s blocked (createdState st current next gNew hNew fNew) := by
  unfold createdState
  have hcok := hI.nodes current c hc
  obtain ⟨n0, hn0, hn0g, hn0p⟩ := hI.start
  refine ⟨⟨n0, findNode_append_of_some _ hn0, hn0g, hn0p⟩, ?_, ?_⟩
  · intro q n hq
    change findNode (_ ++ [_]) _ = _ at hq
    show NodeOk s blocked (_ ++ [_]) q n
    cases hold : findNode st.allNodes q with
    | some m =>
      rw [findNode_append_of_some _ hold] at hq
      have : m = n := Option.some.inj hq
      subst this
      have hok := hI.nodes q m hold
      refine ⟨hok.g_nonneg, ?_, hok.root, ?_⟩
      · have := hok.g_lt
        simp only [List.length_append, List.length_singleton]
        push_cast; omega
      · intro p hp
        obtain ⟨m', hm', hmg, hadj', hw'⟩ := hok.link p hp
        exact ⟨m', findNode_append_of_some _ hm', hmg, hadj', hw'⟩
    | none =>
      rw [findNode_append_of_none _ hold] at hq
      by_cases hqn : next = q
      · rw [if_pos hqn] at hq
        have : n = ⟨next, gNew, hNew, fNew, some current⟩ := (Option.some.inj hq).symm
        subst this
        refine ⟨?_, ?_, ?_, ?_⟩
        · show 0 ≤ gNew
          have := hcok.g_nonneg; omega
        · show gNew < _
          have := hcok.g_lt
          simp only [List.length_append, List.length_singleton]
          push_cast; omega
        · intro h; cases h
        · intro p hp
          have hp' : p = current := (Option.some.inj hp).symm
          subst hp'
          refine ⟨c, findNode_append_of_some _ hc, ?_, ?_, ?_⟩
          · show c.g + 1 ≤ gNew
            omega
          · rw [← hqn]; exact hadj
          · rw [← hqn]; exact hw
      · rw [if_neg hqn] at hq; cases hq
  · intro p hp
    change p ∈ pushHeap _ _ _ at hp
    rw [mem_pushHeap] at hp
    show ∃ n, findNode (_ ++ [_]) p = some n
    rcases hp with h | h
    · subst h
      exact ⟨_, by rw [findNode_append_of_none _ hnone, if_pos rfl]⟩
    · obtain ⟨n, hn⟩ := hI.openKeys p h
      exact ⟨n, findNode_append_of_some _ hn⟩

/-- The keys of `allNodes` are never removed by `relax`. -/
theorem relax_keeps_keys (s : MainWindow) (blocked : List QPoint) (current : QPoint)
    (st : Search) (d : QPoint) (q : QPoint)
    (h : ∃ n, findNode st.allNodes q = some n) :
    ∃ n, findNode (relax s blocked current st d).allNodes q = some n := by
  obtain ⟨n, hn⟩ := h
  rcases relax_cases s blocked current st d with
    ⟨h, _⟩ | ⟨_, nb, fNew, hnb, _, h⟩ | ⟨_, _, hNew, fNew, h⟩
  · rw [h]; exact ⟨n, hn⟩
  · rw [h]
    show ∃ n, findNode (updateNode _ _ _) q = some n
    rw [findNode_update_fields _ _ _ hnb]
    by_cases hq : q = ⟨current.x + d.x, current.y + d.y⟩
    · exact ⟨_, by rw [if_pos hq]⟩
    · exact ⟨n, by rw [if_neg hq]; exact hn⟩
  · rw [h]
    exact ⟨n, findNode_append_of_some _ hn⟩

theorem relax_inv (s : MainWindow) (blocked : List QPoint) (current : QPoint)
    (st : Search) (d : QPoint) (hd : d ∈ directions)
    (hI : SearchInv s blocked st)
    (hc : ∃ c, findNode st.allNodes current = some c) :
    SearchInv s blocked (relax s blocked current st d) := by
  obtain ⟨c, hc⟩ := hc
  have hder : deref st.allNodes current = c := deref_of_findNode hc
  rcases relax_cases s blocked current st d with
    ⟨h, _⟩ | ⟨hw, nb, fNew, hnb, hlt, h⟩ | ⟨hw, hnone, hNew, fNew, h⟩
  · rw [h]; exact hI
  · rw [h]
    rw [hder] at hlt ⊢
    exact searchInv_update s blocked current _ st c nb _ _ hI hc hnb rfl hlt
      (direction_ne current d hd) (adjacent_direction current d hd) hw
  · rw [h]
    rw [hder]
    exact searchInv_create s blocked current _ st c _ _ _ hI hc hnone rfl
      (adjacent_direction current d hd) hw

theorem foldl_relax_inv (s : MainWindow) (blocked : List QPoint) (current : QPoint)
    (ds : List QPoint) (hds : ∀ d ∈ ds, d ∈ directions) (st : Search)
    (hI : SearchInv s blocked st)
    (hc : ∃ c, findNode st.allNodes current = some c) :
    SearchInv s blocked (ds.foldl (relax s blocked current) st) := by
  induction ds generalizing st with
  | nil => exact hI
  | cons d t ih =>
    rw [List.foldl_cons]
    exact ih (fun d' hd' => hds d' (List.mem_cons_of_mem _ hd')) _
      (relax_inv s blocked current st d (hds d (List.mem_cons_self _ _)) hI hc)
      (relax_keeps_keys s blocked current st d current hc)

theorem loopStep_inv (s : MainWindow) (blocked : List QPoint) (st st' : Search)
    (hI : SearchInv s blocked st) (h : loopStep s blocked st st') :
    SearchInv s blocked st' := by
  obtain ⟨current, rest, hq, _, rfl⟩ := h
  unfold expandNode
  apply foldl_relax_inv s blocked current directions (fun d hd => hd)
  · refine ⟨hI.start, hI.nodes, ?_⟩
    show ∀ p ∈ popHeap st.allNodes st.openQueue, ∃ n, findNode st.allNodes p = some n
    intro p hp
    change p ∈ popHeap _ _ at hp
    rw [hq, mem_popHeap] at hp
    exact hI.openKeys p (hq ▸ List.mem_cons_of_mem _ hp)
  · exact hI.openKeys current (hq ▸ List.mem_cons_self _ _)

theorem aStarInit_inv (s : MainWindow) (blocked : List QPoint) :
    SearchInv s blocked (aStarInit s) := by
  have hf : ∀ q n, findNode (aStarInit s).allNodes q = some n →
      q = s.startPoint ∧ n = ⟨s.startPoint, 0, heuristic s.startPoint s.endPoint,
        0 + heuristic s.startPoint s.endPoint, none⟩ := by
    intro q n h
    change findNode [_] q = some n at h
    rw [findNode_cons] at h
    by_cases hq : s.startPoint = q
    · rw [if_pos hq] at h
      exact ⟨hq.symm, (Option.some.inj h).symm⟩
    · rw [if_neg hq] at h; cases h
  refine ⟨⟨⟨s.startPoint, 0, heuristic s.startPoint s.endPoint,
        0 + heuristic s.startPoint s.endPoint, none⟩, ?_, rfl, rfl⟩, ?_, ?_⟩
  · show findNode [_] _ = _
    rw [findNode_cons, if_pos rfl]
  · intro q n h
    obtain ⟨rfl, rfl⟩ := hf q n h
    refine ⟨le_refl _, ?_, fun _ => rfl, ?_⟩
    · show (0 : Int) < ((aStarInit s).allNodes.length : Int)
      simp [aStarInit]
    · intro p hp; cases hp
  · intro p hp
    have hp' : p ∈ pushHeap (aStarInit s).allNodes [] s.startPoint := hp
    rw [mem_pushHeap] at hp'
    rcases hp' with h | h
    · subst h
      refine ⟨⟨s.startPoint, 0, heuristic s.startPoint s.endPoint,
        0 + heuristic s.startPoint s.endPoint, none⟩, ?_⟩
      show findNode [_] _ = _
      rw [findNode_cons, if_pos rfl]
    · cases h

/-! ## Lemmas: path reconstruction -/

theorem reversePathLoop_chain (s : MainWindow) (blocked : List QPoint) (allNodes : List Node)
    (hN : ∀ q n, findNode allNodes q = some n → NodeOk s blocked allNodes q n) :
    ∀ (k : Nat) (q : QPoint) (n : Node), findNode allNodes q = some n → n.g ≤ (k : Int) →
      ∀ (fuel : Nat), k < fuel → ∀ acc : List QPoint,
        ∃ l, reversePathLoop allNodes fuel (some q) acc = some (l ++ acc) ∧
          l.head? = some s.startPoint ∧ l.getLast? = some q ∧ l.Chain' adjacent ∧
          (∀ c ∈ l.tail, walkable s blocked c) ∧
          (∀ c ∈ l, ∃ m, findNode allNodes c = some m ∧ m.g ≤ n.g) ∧ l.Nodup := by
  intro k
  induction k with
  | zero =>
    intro q n hq hg fuel hfuel acc
    have hok := hN q n hq
    cases hpar : n.parent with
    | some p =>
      obtain ⟨m, hm, hmg, _, _⟩ := hok.link p hpar
      have := (hN p m hm).g_nonneg
      exfalso
      have hg' : n.g ≤ 0 := by simpa using hg
      omega
    | none =>
      have hqs := hok.root hpar
      obtain ⟨f, rfl⟩ : ∃ f, fuel = f + 1 := ⟨fuel - 1, by omega⟩
      refine ⟨[q], ?_, by simp [hqs], by simp, List.chain'_singleton _, by simp, ?_, by simp⟩
      · rw [reversePathLoop, deref_of_findNode hq, hpar, findNode_pos hq]
        cases f <;> rfl
      · intro c hc
        have : c = q := by simpa using hc
        subst this
        exact ⟨n, hq, le_refl _⟩
  | succ k ih =>
    intro q n hq hg fuel hfuel acc
    have hok := hN q n hq
    obtain ⟨f, rfl⟩ : ∃ f, fuel = f + 1 := ⟨fuel - 1, by omega⟩
    cases hpar : n.parent with
    | none =>
      have hqs := hok.root hpar
      refine ⟨[q], ?_, by simp [hqs], by simp, List.chain'_singleton _, by simp, ?_, by simp⟩
      · rw [reversePathLoop, deref_of_findNode hq, hpar, findNode_pos hq]
        cases f <;> rfl
      · intro c hc
        have : c = q := by simpa using hc
        subst this
        exact ⟨n, hq, le_refl _⟩
    | some p =>
      obtain ⟨m, hm, hmg, hadj, hw⟩ := hok.link p hpar
      have hmk : m.g ≤ (k : Int) := by push_cast at hg; omega
      obtain ⟨l, hl, hhead, hlast, hchain, hwalk, hbound, hnodup⟩ :=
        ih p m hm hmk f (by omega) (q :: acc)
      have hne : l ≠ [] := by
        intro h; subst h; simp at hhead
      refine ⟨l ++ [q], ?_, ?_, ?_, ?_, ?_, ?_, ?_⟩
      · rw [reversePathLoop, deref_of_findNode hq, hpar, findNode_pos hq, hl]
        simp
      · rw [List.head?_append_of_ne_nil _ hne]; exact hhead
      · simp
      · refine List.Chain'.append hchain (List.chain'_singleton _) ?_
        intro x hx y hy
        rw [hlast] at hx
        have hx' : x = p := by simpa using hx.symm
        have hy' : y = q := by simpa using hy.symm
        rw [hx', hy']; exact hadj
      · intro c hc
        rw [List.tail_append_of_ne_nil hne] at hc
        rcases List.mem_append.1 hc with h | h
        · exact hwalk c h
        · have : c = q := by simpa using h
          rw [this]; exact hw
      · intro c hc
        rcases List.mem_append.1 hc with h | h
        · obtain ⟨m', hm', hle⟩ := hbound c h
          exact ⟨m', hm', by omega⟩
        · have : c = q := by simpa using h
          rw [this]; exact ⟨n, hq, le_refl _⟩
      · rw [List.nodup_append]
        refine ⟨hnodup, by simp, ?_⟩
        intro a ha hb
        have : a = q := by simpa using hb
        subst this
        obtain ⟨m', hm', hle⟩ := hbound a ha
        rw [hq] at hm'
        have : n = m' := Option.some.inj hm'
        subst this
        omega

theorem loopReach_inv (s : MainWindow) (blocked : List QPoint) (st : Search)
    (h : loopReach s blocked (aStarInit s) st) : SearchInv s blocked st :=
  loopReach_induction s blocked (SearchInv s blocked)
    (fun a b ha hab => loopStep_inv s blocked a b ha hab) _ _ (aStarInit_inv s blocked) h

/-- When the loop ends with a non-null `endNode`, that pointer is the end
point, its node is stored, and every stored node satisfies `NodeOk`. -/
theorem aStarLoop_found (s : MainWindow) (blocked : List QPoint) (fuel : Nat)
    (e : QPoint) (st : Search)
    (h : aStarLoop s blocked fuel (aStarInit s) = some (some e, st)) :
    e = s.endPoint ∧ (∃ n, findNode st.allNodes s.endPoint = some n) ∧
      ∀ q n, findNode st.allNodes q = some n → NodeOk s blocked st.allNodes q n := by
  obtain ⟨st0, hreach, hres⟩ := aStarLoop_result s blocked fuel _ _ _ h
  have hI := loopReach_inv s blocked st0 hreach
  rcases hres with ⟨h1, _, _⟩ | ⟨rest, h1, h2, h3⟩
  · cases h1
  · subst h3
    refine ⟨Option.some.inj h1, ?_, hI.nodes⟩
    exact hI.openKeys s.endPoint (h2 ▸ List.mem_cons_self _ _)

theorem aStar_true_path (s : MainWindow) (path0 blocked path : List QPoint)
    (h : aStar s path0 blocked = some (true, path)) :
    path.head? = some s.startPoint ∧ path.getLast? = some s.endPoint ∧
      path.Chain' adjacent ∧ path.Nodup ∧ ∀ c ∈ path.tail, walkable s blocked c := by
  unfold aStar at h
  cases hloop : aStarLoop s blocked (aStarFuel s) (aStarInit s) with
  | none => rw [hloop] at h; cases h
  | some r =>
    obtain ⟨e, st⟩ := r
    rw [hloop] at h
    cases e with
    | none => simp at h
    | some e =>
      obtain ⟨he, ⟨n, hn⟩, hN⟩ := aStarLoop_found s blocked _ e st hloop
      subst he
      have hlt := (hN _ n hn).g_lt
      have hnn := (hN _ n hn).g_nonneg
      obtain ⟨l, hl, hhead, hlast, hchain, hwalk, _, hnodup⟩ :=
        reversePathLoop_chain s blocked st.allNodes hN n.g.toNat s.endPoint n hn
          (by omega) (st.allNodes.length + 1) (by omega) []
      simp only [hl, List.append_nil, Option.some.injEq, Prod.mk.injEq, true_and] at h
      subst h
      exact ⟨hhead, hlast, hchain, hnodup, hwalk⟩

/-! ## Lemmas: counting cells -/

theorem mem_allCells (s : MainWindow) (p : QPoint) : p ∈ allCells s ↔ inBounds s p := by
  unfold allCells inBounds
  simp only [List.mem_flatMap, List.mem_range, List.mem_map]
  constructor
  · rintro ⟨y, hy, x, hx, rfl⟩
    have h1 := Int.lt_toNat.1 hy
    have h2 := Int.lt_toNat.1 hx
    simp only
    omega
  · rintro ⟨h1, h2, h3, h4⟩
    have e1 : (p.x.toNat : Int) = p.x := Int.toNat_of_nonneg h1
    have e2 : (p.y.toNat : Int) = p.y := Int.toNat_of_nonneg h3
    refine ⟨p.y.toNat, Int.lt_toNat.2 (by omega), p.x.toNat, Int.lt_toNat.2 (by omega), ?_⟩
    cases p with
    | mk px py =>
      simp only [QPoint.mk.injEq]
      exact ⟨e1, e2⟩

theorem flatMap_row_length (c : Nat) (l : List Nat) :
    (l.flatMap (fun (y : Nat) => (List.range c).map
      (fun (x : Nat) => (⟨(x : Int), (y : Int)⟩ : QPoint)))).length = l.length * c := by
  induction l with
  | nil => simp
  | cons a t ih =>
    rw [List.flatMap_cons, List.length_append, ih]
    simp only [List.length_map, List.length_range, List.length_cons]
    ring

theorem allCells_length (s : MainWindow) :
    (allCells s).length = s.rows.toNat * s.cols.toNat := by
  unfold allCells
  rw [flatMap_row_length, List.length_range]

theorem allCells_length_le (s : MainWindow) : (allCells s).length ≤ cellCount s := by
  rw [allCells_length]
  unfold cellCount
  by_cases hr : 0 ≤ s.rows
  · by_cases hc : 0 ≤ s.cols
    · have h1 : (s.rows.toNat : Int) = s.rows := Int.toNat_of_nonneg hr
      have h2 : (s.cols.toNat : Int) = s.cols := Int.toNat_of_nonneg hc
      have h3 : ((s.rows.toNat * s.cols.toNat : Nat) : Int) = s.rows * s.cols := by
        push_cast; rw [h1, h2]
      have : (s.rows * s.cols).toNat = s.rows.toNat * s.cols.toNat := by
        rw [← h3]; exact Int.toNat_natCast _
      omega
    · have : s.cols.toNat = 0 := by
        have : s.cols ≤ 0 := by omega
        exact Int.toNat_eq_zero.2 this
      simp [this]
  · have : s.rows.toNat = 0 := by
      have : s.rows ≤ 0 := by omega
      exact Int.toNat_eq_zero.2 this
    simp [this]

/-- A list of distinct cells of the grid is no longer than the grid is large. -/
theorem nodup_inBounds_length_le (s : MainWindow) (l : List QPoint) (hnd : l.Nodup)
    (hin : ∀ p ∈ l, inBounds s p) : l.length ≤ cellCount s := by
  have hsub : l ⊆ allCells s := fun p hp => (mem_allCells s p).2 (hin p hp)
  exact ((List.Nodup.subperm hnd hsub).length_le).trans (allCells_length_le s)

/-! ## Lemmas: termination of the A* loop -/

theorem findNode_mem {allNodes : List Node} {q : QPoint} {n : Node}
    (h : findNode allNodes q = some n) : n ∈ allNodes :=
  List.mem_of_find?_eq_some h

theorem findNode_eq_none_iff (allNodes : List Node) (q : QPoint) :
    findNode allNodes q = none ↔ q ∉ allNodes.map Node.pos := by
  unfold findNode
  rw [List.find?_eq_none]
  simp only [decide_eq_true_eq, List.mem_map, not_exists, not_and]

theorem updateNode_of_not_mem (allNodes : List Node) (p : QPoint) (n : Node)
    (h : p ∉ allNodes.map Node.pos) : updateNode allNodes p n = allNodes := by
  induction allNodes with
  | nil => rfl
  | cons m t ih =>
    simp only [List.map_cons, List.mem_cons, not_or] at h
    rw [updateNode_cons, ih h.2, if_neg (fun hm => h.1 hm.symm)]

theorem map_pos_updateNode (allNodes : List Node) (p : QPoint) (n : Node) (hn : n.pos = p) :
    (updateNode allNodes p n).map Node.pos = allNodes.map Node.pos := by
  induction allNodes with
  | nil => rfl
  | cons m t ih =>
    rw [updateNode_cons, List.map_cons, List.map_cons, ih]
    by_cases hm : m.pos = p
    · rw [if_pos hm, hn, hm]
    · rw [if_neg hm]

theorem mem_updateNode {allNodes : List Node} {p : QPoint} {n m : Node}
    (h : m ∈ updateNode allNodes p n) : m = n ∨ m ∈ allNodes := by
  unfold updateNode at h
  obtain ⟨a, ha, rfl⟩ := List.mem_map.1 h
  by_cases hp : a.pos = p
  · left; simp [hp]
  · right; simpa [hp] using ha

theorem potential_cons (K : Int) (m : Node) (t : List Node) :
    potential K (m :: t) = (K - m.g) + potential K t := by
  simp [potential]

theorem potential_append (K : Int) (t : List Node) (m : Node) :
    potential K (t ++ [m]) = potential K t + (K - m.g) := by
  simp [potential]

theorem potential_le (K : Int) (allNodes : List Node) (h : ∀ n ∈ allNodes, 0 ≤ n.g) :
    potential K allNodes ≤ (allNodes.length : Int) * K := by
  induction allNodes with
  | nil => simp [potential]
  | cons m t ih =>
    rw [potential_cons]
    have h1 := h m (List.mem_cons_self _ _)
    have h2 := ih (fun n hn => h n (List.mem_cons_of_mem _ hn))
    simp only [List.length_cons]
    push_cast
    nlinarith

theorem potential_update (K : Int) (allNodes : List Node) (p : QPoint) (nb n : Node)
    (hnd : (allNodes.map Node.pos).Nodup) (hnb : findNode allNodes p = some nb)
    (hg : n.g + 1 ≤ nb.g) :
    potential K allNodes + 1 ≤ potential K (updateNode allNodes p n) := by
  induction allNodes with
  | nil => simp [findNode] at hnb
  | cons m t ih =>
    rw [List.map_cons, List.nodup_cons] at hnd
    rw [findNode_cons] at hnb
    rw [updateNode_cons, potential_cons, potential_cons]
    by_cases hm : m.pos = p
    · rw [if_pos hm] at hnb ⊢
      have hmn : m = nb := Option.some.inj hnb
      rw [updateNode_of_not_mem t p n (hm ▸ hnd.1), hmn]
      omega
    · rw [if_neg hm] at hnb ⊢
      have := ih hnd.2 hnb
      omega

theorem termInv_g_nonneg {s : MainWindow} {blocked : List QPoint} {st : Search}
    (h : TermInv s blocked st) : ∀ n ∈ st.allNodes, 0 ≤ n.g := by
  intro n hn
  have hnone_or : ∃ m, findNode st.allNodes n.pos = some m := by
    cases hf : findNode st.allNodes n.pos with
    | some m => exact ⟨m, rfl⟩
    | none =>
      exfalso
      exact (findNode_eq_none_iff _ _).1 hf (List.mem_map_of_mem _ hn)
  obtain ⟨m, hm⟩ := hnone_or
  have hmem := findNode_mem hm
  have hpos := findNode_pos hm
  have : m = n := by
    have hinj := List.inj_on_of_nodup_map h.nodup
    exact hinj hmem hn hpos
  subst this
  exact (h.inv.nodes _ _ hm).g_nonneg

theorem termInv_length_le {s : MainWindow} {blocked : List QPoint} {st : Search}
    (h : TermInv s blocked st) : st.allNodes.length ≤ cellCount s := by
  have := nodup_inBounds_length_le s (st.allNodes.map Node.pos) h.nodup
    (by
      intro p hp
      obtain ⟨n, hn, rfl⟩ := List.mem_map.1 hp
      exact h.inb n hn)
  simpa using this

theorem termInv_potential_le {s : MainWindow} {blocked : List QPoint} {st : Search}
    (h : TermInv s blocked st) :
    potential (cellCount s) st.allNodes ≤ (cellCount s : Int) * (cellCount s : Int) := by
  have h1 := potential_le (cellCount s) st.allNodes (termInv_g_nonneg h)
  have h2 : (st.allNodes.length : Int) ≤ (cellCount s : Int) := by
    exact_mod_cast termInv_length_le h
  have h3 : (0 : Int) ≤ (cellCount s : Int) := by positivity
  nlinarith

theorem termInv_measure_nonneg {s : MainWindow} {blocked : List QPoint} {st : Search}
    (h : TermInv s blocked st) : 0 ≤ searchMeasure s st := by
  unfold searchMeasure
  have := termInv_potential_le h
  have : (0 : Int) ≤ (st.openQueue.length : Int) := by positivity
  omega

theorem termInv_update (s : MainWindow) (blocked : List QPoint) (current next : QPoint)
    (st : Search) (nb : Node) (gNew fNew : Int)
    (hT : TermInv s blocked st)
    (hI' : SearchInv s blocked (updatedState st current next nb gNew fNew))
    (hnb : findNode st.allNodes next = some nb) (hlt : gNew < nb.g)
    (hw : walkable s blocked next) :
    TermInv s blocked (updatedState st current next nb gNew fNew) ∧
      searchMeasure s (updatedState st current next nb gNew fNew) ≤ searchMeasure s st := by
  have hposn : ({ nb with parent := some current, g := gNew, f := fNew } : Node).pos = next :=
    show nb.pos = next from findNode_pos hnb
  refine ⟨⟨hI', ?_, ?_⟩, ?_⟩
  · show ((updateNode _ _ _).map Node.pos).Nodup
    rw [map_pos_updateNode _ _ _ hposn]
    exact hT.nodup
  · intro n hn
    rcases mem_updateNode hn with h1 | h1
    · rw [h1, hposn]; exact hw.1
    · exact hT.inb n h1
  · unfold searchMeasure
    have hp := potential_update (cellCount s) st.allNodes next nb
      ({ nb with parent := some current, g := gNew, f := fNew } : Node)
      hT.nodup hnb (by show gNew + 1 ≤ nb.g; omega)
    simp only [updatedState, pushHeap_length]
    push_cast
    omega

theorem termInv_create (s : MainWindow) (blocked : List QPoint) (current next : QPoint)
    (st : Search) (c : Node) (gNew hNew fNew : Int)
    (hT : TermInv s blocked st)
    (hI' : SearchInv s blocked (createdState st current next gNew hNew fNew))
    (hc : findNode st.allNodes current = some c) (hg : gNew = c.g + 1)
    (hnone : findNode st.allNodes next = none)
    (hw : walkable s blocked next) :
    TermInv s blocked (createdState st current next gNew hNew fNew) ∧
      searchMeasure s (createdState st current next gNew hNew fNew) ≤ searchMeasure s st := by
  have hT' : TermInv s blocked (createdState st current next gNew hNew fNew) := by
    refine ⟨hI', ?_, ?_⟩
    · show ((_ ++ [_]).map Node.pos).Nodup
      rw [List.map_append, List.nodup_append]
      refine ⟨hT.nodup, by simp, ?_⟩
      intro a ha hb
      have : a = next := by simpa using hb
      subst this
      exact (findNode_eq_none_iff _ _).1 hnone ha
    · intro n hn
      rcases List.mem_append.1 hn with h1 | h1
      · exact hT.inb n h1
      · have : n = _ := List.mem_singleton.1 h1
        rw [this]; exact hw.1
  refine ⟨hT', ?_⟩
  have hlen := termInv_length_le hT'
  simp only [createdState, List.length_append, List.length_singleton] at hlen
  have hcg := (hT.inv.nodes current c hc).g_lt
  unfold searchMeasure
  simp only [createdState, pushHeap_length, potential_append]
  push_cast
  have hcast : ((st.allNodes.length : Int) + 1) ≤ (cellCount s : Int) := by exact_mod_cast hlen
  omega

theorem relax_term (s : MainWindow) (blocked : List QPoint) (current : QPoint)
    (st : Search) (d : QPoint) (hd : d ∈ directions)
    (hT : TermInv s blocked st)
    (hc : ∃ c, findNode st.allNodes current = some c) :
    TermInv s blocked (relax s blocked current st d) ∧
      searchMeasure s (relax s blocked current st d) ≤ searchMeasure s st := by
  have hI' := relax_inv s blocked current st d hd hT.inv hc
  obtain ⟨c, hc⟩ := hc
  have hder : deref st.allNodes current = c := deref_of_findNode hc
  rcases relax_cases s blocked current st d with
    ⟨h, _⟩ | ⟨hw, nb, fNew, hnb, hlt, h⟩ | ⟨hw, hnone, hNew, fNew, h⟩
  · rw [h]; exact ⟨hT, le_refl _⟩
  · rw [h] at hI' ⊢
    exact termInv_update s blocked current _ st nb _ _ hT hI' hnb hlt hw
  · rw [h] at hI' ⊢
    exact termInv_create s blocked current _ st c _ _ _ hT hI' hc (by rw [hder]) hnone hw

theorem foldl_relax_term (s : MainWindow) (blocked : List QPoint) (current : QPoint)
    (ds : List QPoint) (hds : ∀ d ∈ ds, d ∈ directions) (st : Search)
    (hT : TermInv s blocked st)
    (hc : ∃ c, findNode st.allNodes current = some c) :
    TermInv s blocked (ds.foldl (relax s blocked current) st) ∧
      searchMeasure s (ds.foldl (relax s blocked current) st) ≤ searchMeasure s st := by
  induction ds generalizing st with
  | nil => exact ⟨hT, le_refl _⟩
  | cons d t ih =>
    rw [List.foldl_cons]
    obtain ⟨h1, h2⟩ := relax_term s blocked current st d (hds d (List.mem_cons_self _ _)) hT hc
    obtain ⟨h3, h4⟩ := ih (fun d' hd' => hds d' (List.mem_cons_of_mem _ hd')) _ h1
      (relax_keeps_keys s blocked current st d current hc)
    exact ⟨h3, le_trans h4 h2⟩

theorem loopStep_term (s : MainWindow) (blocked : List QPoint) (st st' : Search)
    (hT : TermInv s blocked st) (h : loopStep s blocked st st') :
    TermInv s blocked st' ∧ searchMeasure s st' + 1 ≤ searchMeasure s st := by
  obtain ⟨current, rest, hq, _, rfl⟩ := h
  have hpop : TermInv s blocked (logExpansion (popped st) current) := by
    refine ⟨⟨hT.inv.start, hT.inv.nodes, ?_⟩, hT.nodup, hT.inb⟩
    intro p hp
    change p ∈ popHeap _ _ at hp
    rw [hq, mem_popHeap] at hp
    exact hT.inv.openKeys p (hq ▸ List.mem_cons_of_mem _ hp)
  have hcur : ∃ c, findNode st.allNodes current = some c :=
    hT.inv.openKeys current (hq ▸ List.mem_cons_self _ _)
  obtain ⟨h1, h2⟩ := foldl_relax_term s blocked current directions (fun d hd => hd) _ hpop hcur
  refine ⟨h1, ?_⟩
  have hm : searchMeasure s (logExpansion (popped st) current) + 1 = searchMeasure s st := by
    unfold searchMeasure popped logExpansion
    simp only [hq, popHeap_length, List.length_cons]
    push_cast
    ring
  unfold expandNode
  omega

theorem aStarLoop_terminates (s : MainWindow) (blocked : List QPoint) :
    ∀ (fuel : Nat) (st : Search), TermInv s blocked st → searchMeasure s st < (fuel : Int) →
      ∃ r, aStarLoop s blocked fuel st = some r := by
  intro fuel
  induction fuel with
  | zero =>
    intro st hT hm
    have := termInv_measure_nonneg hT
    simp at hm
    omega
  | succ n ih =>
    intro st hT hm
    rw [aStarLoop_succ]
    cases hq : st.openQueue with
    | nil => exact ⟨_, rfl⟩
    | cons current rest =>
      simp only
      by_cases hc : current = s.endPoint
      · rw [if_pos hc]; exact ⟨_, rfl⟩
      · rw [if_neg hc]
        obtain ⟨h1, h2⟩ := loopStep_term s blocked st _ hT ⟨current, rest, hq, hc, rfl⟩
        apply ih _ h1
        push_cast at hm
        omega

theorem aStarInit_term (s : MainWindow) (blocked : List QPoint)
    (hs : inBounds s s.startPoint) : TermInv s blocked (aStarInit s) := by
  refine ⟨aStarInit_inv s blocked, ?_, ?_⟩
  · show ([_].map Node.pos).Nodup
    simp
  · intro n hn
    have : n = _ := List.mem_singleton.1 hn
    rw [this]; exact hs

theorem aStarInit_measure (s : MainWindow) :
    searchMeasure s (aStarInit s) < (aStarFuel s : Int) := by
  unfold searchMeasure aStarFuel aStarInit cellCount
  simp only [pushHeap_length, List.length_nil, potential, List.map_cons, List.map_nil,
    List.sum_cons, List.sum_nil]
  push_cast
  have : (0 : Int) ≤ ((s.rows * s.cols).toNat : Int) := by positivity
  omega

theorem loopReach_term (s : MainWindow) (blocked : List QPoint) (st : Search)
    (hs : inBounds s s.startPoint)
    (h : loopReach s blocked (aStarInit s) st) : TermInv s blocked st :=
  loopReach_induction s blocked (TermInv s blocked)
    (fun a b ha hab => (loopStep_term s blocked a b ha hab).1) _ _ (aStarInit_term s blocked hs) h

/-! ## Lemmas: completeness of the A* loop -/

theorem relax_open_mono (s : MainWindow) (blocked : List QPoint) (current : QPoint)
    (st : Search) (d : QPoint) (q : QPoint) (h : q ∈ st.openQueue) :
    q ∈ (relax s blocked current st d).openQueue := by
  rcases relax_cases s blocked current st d with
    ⟨h', _⟩ | ⟨_, nb, fNew, _, _, h'⟩ | ⟨_, _, hNew, fNew, h'⟩
  · rw [h']; exact h
  · rw [h']
    show q ∈ pushHeap _ _ _
    rw [mem_pushHeap]; exact Or.inr h
  · rw [h']
    show q ∈ pushHeap _ _ _
    rw [mem_pushHeap]; exact Or.inr h

theorem relax_new_key (s : MainWindow) (blocked : List QPoint) (current : QPoint)
    (st : Search) (d : QPoint) (q : QPoint)
    (h : hasNode (relax s blocked current st d) q) :
    hasNode st q ∨ q ∈ (relax s blocked current st d).openQueue := by
  rcases relax_cases s blocked current st d with
    ⟨h', _⟩ | ⟨_, nb, fNew, hnb, _, h'⟩ | ⟨_, hnone, hNew, fNew, h'⟩
  · rw [h'] at h; exact Or.inl h
  · rw [h'] at h ⊢
    obtain ⟨n, hn⟩ := h
    change findNode (updateNode _ _ _) q = some n at hn
    rw [findNode_update_fields _ _ _ hnb] at hn
    by_cases hq : q = ⟨current.x + d.x, current.y + d.y⟩
    · right
      show q ∈ pushHeap _ _ _
      rw [mem_pushHeap]; exact Or.inl hq
    · rw [if_neg hq] at hn
      exact Or.inl ⟨n, hn⟩
  · rw [h'] at h ⊢
    obtain ⟨n, hn⟩ := h
    change findNode (_ ++ [_]) q = some n at hn
    cases hold : findNode st.allNodes q with
    | some m => exact Or.inl ⟨m, hold⟩
    | none =>
      rw [findNode_append_of_none _ hold] at hn
      right
      show q ∈ pushHeap _ _ _
      rw [mem_pushHeap]
      left
      by_contra hq
      rw [if_neg (fun h => hq h.symm)] at hn
      cases hn

theorem relax_stores (s : MainWindow) (blocked : List QPoint) (current : QPoint)
    (st : Search) (d : QPoint)
    (hw : walkable s blocked ⟨current.x + d.x, current.y + d.y⟩) :
    hasNode (relax s blocked current st d) ⟨current.x + d.x, current.y + d.y⟩ := by
  rcases relax_cases s blocked current st d with
    ⟨h', hex⟩ | ⟨_, nb, fNew, hnb, _, h'⟩ | ⟨_, hnone, hNew, fNew, h'⟩
  · rw [h']; exact hex hw
  · rw [h']
    exact ⟨_, (findNode_update_fields _ _ _ hnb _).trans (if_pos rfl)⟩
  · rw [h']
    exact ⟨_, (findNode_append_of_none _ hnone).trans (if_pos rfl)⟩

theorem foldl_relax_mono (s : MainWindow) (blocked : List QPoint) (current : QPoint)
    (ds : List QPoint) (st : Search) :
    (∀ q, hasNode st q → hasNode (ds.foldl (relax s blocked current) st) q) ∧
    (∀ q, q ∈ st.openQueue → q ∈ (ds.foldl (relax s blocked current) st).openQueue) ∧
    (∀ q, hasNode (ds.foldl (relax s blocked current) st) q →
      hasNode st q ∨ q ∈ (ds.foldl (relax s blocked current) st).openQueue) ∧
    (∀ d ∈ ds, walkable s blocked ⟨current.x + d.x, current.y + d.y⟩ →
      hasNode (ds.foldl (relax s blocked current) st) ⟨current.x + d.x, current.y + d.y⟩) := by
  induction ds generalizing st with
  | nil =>
    refine ⟨fun q h => h, fun q h => h, fun q h => Or.inl h, ?_⟩
    intro d hd; cases hd
  | cons d t ih =>
    rw [List.foldl_cons]
    obtain ⟨h1, h2, h3, h4⟩ := ih (relax s blocked current st d)
    refine ⟨?_, ?_, ?_, ?_⟩
    · intro q hq
      exact h1 q (relax_keeps_keys s blocked current st d q hq)
    · intro q hq
      exact h2 q (relax_open_mono s blocked current st d q hq)
    · intro q hq
      rcases h3 q hq with h | h
      · rcases relax_new_key s blocked current st d q h with h' | h'
        · exact Or.inl h'
        · exact Or.inr (h2 q h')
      · exact Or.inr h
    · intro d' hd' hw
      rcases List.mem_cons.1 hd' with h | h
      · subst h
        exact h1 _ (relax_stores s blocked current st d' hw)
      · exact h4 d' h hw

theorem loopStep_comp (s : MainWindow) (blocked : List QPoint) (st st' : Search)
    (hC : CompInv s blocked st) (h : loopStep s blocked st st') :
    CompInv s blocked st' := by
  obtain ⟨current, rest, hq, hne, rfl⟩ := h
  obtain ⟨h1, h2, h3, h4⟩ :=
    foldl_relax_mono s blocked current directions (logExpansion (popped st) current)
  have hrest : ∀ q, q ∈ rest →
      q ∈ (expandNode s blocked current (popped st)).openQueue := by
    intro q hqr
    apply h2
    show q ∈ popHeap st.allNodes st.openQueue
    rw [hq, mem_popHeap]; exact hqr
  refine ⟨?_, ?_⟩
  · intro q hqn
    rcases h3 q hqn with hold | hnew
    · have hold' : hasNode st q := hold
      rcases hC.frontier q hold' with ho | hcl
      · rw [hq] at ho
        rcases List.mem_cons.1 ho with hc | hr
        · right
          subst hc
          intro d hd hw
          exact h4 d hd hw
        · exact Or.inl (hrest q hr)
      · right
        intro d hd hw
        exact h1 _ (hcl d hd hw)
    · exact Or.inl hnew
  · intro hend
    rcases h3 _ hend with hold | hnew
    · have hold' : hasNode st s.endPoint := hold
      have ho := hC.endQueued hold'
      rw [hq] at ho
      rcases List.mem_cons.1 ho with hc | hr
      · exact absurd hc.symm hne
      · exact hrest _ hr
    · exact hnew

theorem aStarInit_comp (s : MainWindow) (blocked : List QPoint) :
    CompInv s blocked (aStarInit s) := by
  have hkey : ∀ q, hasNode (aStarInit s) q → q ∈ (aStarInit s).openQueue := by
    intro q ⟨n, hn⟩
    change findNode [_] q = some n at hn
    rw [findNode_cons] at hn
    show q ∈ pushHeap (aStarInit s).allNodes [] s.startPoint
    rw [mem_pushHeap]
    left
    by_contra hq
    rw [if_neg (fun h => hq h.symm)] at hn
    cases hn
  exact ⟨fun q h => Or.inl (hkey q h), fun h => hkey _ h⟩

theorem loopReach_comp (s : MainWindow) (blocked : List QPoint) (st : Search)
    (h : loopReach s blocked (aStarInit s) st) : CompInv s blocked st :=
  loopReach_induction s blocked (CompInv s blocked)
    (fun a b ha hab => loopStep_comp s blocked a b ha hab) _ _ (aStarInit_comp s blocked) h

theorem direction_of_adjacent (a b : QPoint) (h : adjacent a b) :
    ∃ d ∈ directions, b = ⟨a.x + d.x, a.y + d.y⟩ := by
  cases a with
  | mk ax ay =>
    cases b with
    | mk bx b_y =>
      unfold adjacent at h
      simp only at h
      simp only [directions, List.mem_cons, List.mem_singleton, List.not_mem_nil, or_false,
        exists_eq_or_imp, exists_eq_left, QPoint.mk.injEq]
      rcases h with ⟨h1, h2⟩ | ⟨h1, h2⟩
      · rcases Int.natAbs_eq (ay - b_y) with h3 | h3 <;> rw [h2] at h3 <;>
          simp only [Nat.cast_one] at h3 <;> omega
      · rcases Int.natAbs_eq (ax - bx) with h3 | h3 <;> rw [h2] at h3 <;>
          simp only [Nat.cast_one] at h3 <;> omega

/-- In a state whose queue is empty every cell of a route from a stored cell is
stored. -/
theorem route_stored (s : MainWindow) (blocked : List QPoint) (st : Search)
    (hopen : st.openQueue = []) (hC : CompInv s blocked st) :
    ∀ (route : List QPoint) (a : QPoint), hasNode st a → (a :: route).Chain' adjacent →
      (∀ p ∈ route, walkable s blocked p) → ∀ p ∈ a :: route, hasNode st p := by
  intro route
  induction route with
  | nil =>
    intro a ha _ _ p hp
    have : p = a := by simpa using hp
    rw [this]; exact ha
  | cons b t ih =>
    intro a ha hch hw p hp
    rw [List.chain'_cons] at hch
    have hcl : closedAt s blocked st a := by
      rcases hC.frontier a ha with h | h
      · rw [hopen] at h; cases h
      · exact h
    obtain ⟨d, hd, hb⟩ := direction_of_adjacent a b hch.1
    have hbn : hasNode st b := by
      rw [hb]
      exact hcl d hd (hb ▸ hw b (List.mem_cons_self _ _))
    rcases List.mem_cons.1 hp with h | h
    · rw [h]; exact ha
    · exact ih b hbn hch.2 (fun q hq => hw q (List.mem_cons_of_mem _ hq)) p h

/-! ## Lemmas: the result of `aStar` -/

theorem aStar_total (s : MainWindow) (path0 blocked : List QPoint)
    (hs : inBounds s s.startPoint) :
    (∃ st, aStarLoop s blocked (aStarFuel s) (aStarInit s) = some (none, st) ∧
        st.openQueue = [] ∧ CompInv s blocked st ∧ SearchInv s blocked st ∧
        aStar s path0 blocked = some (false, path0)) ∨
    (∃ path, aStar s path0 blocked = some (true, path)) := by
  obtain ⟨r, hr⟩ := aStarLoop_terminates s blocked (aStarFuel s) (aStarInit s)
    (aStarInit_term s blocked hs) (aStarInit_measure s)
  obtain ⟨e, st⟩ := r
  cases e with
  | none =>
    left
    obtain ⟨st0, hreach, hres⟩ := aStarLoop_result s blocked _ _ _ _ hr
    rcases hres with ⟨_, h2, h3⟩ | ⟨rest, h1, _, _⟩
    · subst h3
      refine ⟨st, hr, h2, loopReach_comp s blocked st hreach,
        loopReach_inv s blocked st hreach, ?_⟩
      unfold aStar
      rw [hr]
    · cases h1
  | some e =>
    right
    obtain ⟨he, ⟨n, hn⟩, hN⟩ := aStarLoop_found s blocked _ e st hr
    subst he
    have hlt := (hN _ n hn).g_lt
    have hnn := (hN _ n hn).g_nonneg
    obtain ⟨l, hl, _⟩ :=
      reversePathLoop_chain s blocked st.allNodes hN n.g.toNat s.endPoint n hn
        (by omega) (st.allNodes.length + 1) (by omega) []
    refine ⟨l, ?_⟩
    unfold aStar
    rw [hr]
    simp only [hl, List.append_nil]

theorem aStar_iff_route (s : MainWindow) (path0 blocked : List QPoint)
    (hw : walkable s blocked s.startPoint) :
    ∃ b path, aStar s path0 blocked = some (b, path) ∧
      (b = false ↔ ¬ ∃ route, isRoute s blocked s.startPoint s.endPoint route) := by
  rcases aStar_total s path0 blocked hw.1 with ⟨st, _, hopen, hC, hI, hres⟩ | ⟨path, hres⟩
  · refine ⟨false, path0, hres, ?_⟩
    refine ⟨fun _ => ?_, fun _ => rfl⟩
    rintro ⟨route, hhead, hlast, hchain, hwalk⟩
    cases route with
    | nil => simp at hhead
    | cons a t =>
      have ha : a = s.startPoint := by simpa using hhead
      subst ha
      have hstored := route_stored s blocked st hopen hC t s.startPoint
        (by obtain ⟨n, hn, _⟩ := hI.start; exact ⟨n, hn⟩) hchain
        (fun p hp => hwalk p (List.mem_cons_of_mem _ hp))
      have hend : s.endPoint ∈ s.startPoint :: t := List.mem_of_getLast?_eq_some hlast
      have := hC.endQueued (hstored _ hend)
      rw [hopen] at this
      cases this
  · refine ⟨true, path, hres, ?_⟩
    refine ⟨fun h => (by cases h), fun h => ?_⟩
    exfalso
    apply h
    obtain ⟨hhead, hlast, hchain, _, hwalk⟩ := aStar_true_path s path0 blocked path hres
    refine ⟨path, hhead, hlast, hchain, ?_⟩
    intro p hp
    cases path with
    | nil => cases hp
    | cons a t =>
      have ha : a = s.startPoint := by simpa using hhead
      rcases List.mem_cons.1 hp with h1 | h1
      · rw [h1, ha]; exact hw
      · exact hwalk p h1

/-! ## Lemmas: the path enumeration -/

theorem foldlM_option_inv {α β : Type} (f : β → α → Option β) (I : β → Prop) (l : List α)
    (hf : ∀ b a b', a ∈ l → I b → f b a = some b' → I b') :
    ∀ b b', I b → l.foldlM f b = some b' → I b' := by
  induction l with
  | nil =>
    intro b b' hb h
    simp only [List.foldlM_nil, Option.pure_def, Option.some.injEq] at h
    exact h ▸ hb
  | cons a t ih =>
    intro b b' hb h
    rw [List.foldlM_cons] at h
    cases hfa : f b a with
    | none => rw [hfa] at h; simp at h
    | some b1 =>
      rw [hfa] at h
      simp only [Option.bind_eq_bind, Option.some_bind] at h
      exact ih (fun b a' b' ha' => hf b a' b' (List.mem_cons_of_mem _ ha')) b1 b'
        (hf b a b1 (List.mem_cons_self _ _) hb hfa) h

theorem foldlM_option_some {α β : Type} (f : β → α → Option β) (I : β → Prop) (l : List α)
    (hf : ∀ b a, a ∈ l → I b → ∃ b', f b a = some b' ∧ I b') :
    ∀ b, I b → ∃ b', l.foldlM f b = some b' ∧ I b' := by
  induction l with
  | nil => intro b hb; exact ⟨b, rfl, hb⟩
  | cons a t ih =>
    intro b hb
    obtain ⟨b1, h1, hI1⟩ := hf b a (List.mem_cons_self _ _) hb
    obtain ⟨b2, h2, hI2⟩ :=
      ih (fun b a' ha' => hf b a' (List.mem_cons_of_mem _ ha')) b1 hI1
    refine ⟨b2, ?_, hI2⟩
    rw [List.foldlM_cons, h1]
    simpa using h2

/-- The outcomes of `tryDirection`: the list is unchanged, or the recursive call
ran on a passable cell outside the path under construction. -/
theorem tryDirection_cases (s : MainWindow)
    (findAll : QPoint → List QPoint → List (List QPoint) → Option (Bool × List (List QPoint)))
    (start : QPoint) (cur : List QPoint) (paths : List (List QPoint)) (d : QPoint) :
    (tryDirection s findAll start cur paths d = some paths ∧
      ¬ (passable s ⟨start.x + d.x, start.y + d.y⟩ ∧
          (⟨start.x + d.x, start.y + d.y⟩ : QPoint) ∉ cur)) ∨
    (passable s ⟨start.x + d.x, start.y + d.y⟩ ∧
      (⟨start.x + d.x, start.y + d.y⟩ : QPoint) ∉ cur ∧
      tryDirection s findAll start cur paths d =
        (findAll ⟨start.x + d.x, start.y + d.y⟩
          (cur ++ [⟨start.x + d.x, start.y + d.y⟩]) paths).map Prod.snd) := by
  unfold tryDirection
  simp only
  split
  · rename_i hg
    refine Or.inl ⟨rfl, ?_⟩
    rintro ⟨⟨⟨h1, h2, h3, h4⟩, _⟩, _⟩
    simp only at h1 h2 h3 h4
    rcases hg with h | h | h | h <;> omega
  · rename_i hg
    simp only [not_or, not_lt, ge_iff_le, not_le] at hg
    split
    · rename_i hwall
      exact Or.inl ⟨rfl, fun h => h.1.2 hwall⟩
    · rename_i hwall
      split
      · rename_i hmem
        exact Or.inl ⟨rfl, fun h => h.2 hmem⟩
      · rename_i hmem
        exact Or.inr ⟨⟨⟨hg.1, hg.2.1, hg.2.2.1, hg.2.2.2⟩, hwall⟩, hmem, rfl⟩

theorem pathTo_extend (s : MainWindow) (start : QPoint) (cur : List QPoint) (d : QPoint)
    (hd : d ∈ directions) (hcur : PathTo s start cur)
    (hp : passable s ⟨start.x + d.x, start.y + d.y⟩)
    (hn : (⟨start.x + d.x, start.y + d.y⟩ : QPoint) ∉ cur) :
    PathTo s ⟨start.x + d.x, start.y + d.y⟩ (cur ++ [⟨start.x + d.x, start.y + d.y⟩]) := by
  have hne : cur ≠ [] := by
    intro h
    have := hcur.head
    rw [h] at this
    simp at this
  refine ⟨?_, by simp, ?_, ?_, ?_⟩
  · rw [List.head?_append_of_ne_nil _ hne]; exact hcur.head
  · rw [List.nodup_append]
    refine ⟨hcur.nodup, by simp, ?_⟩
    intro a ha hb
    have : a = _ := List.mem_singleton.1 hb
    exact hn (this ▸ ha)
  · refine List.Chain'.append hcur.chain (List.chain'_singleton _) ?_
    intro x hx y hy
    rw [hcur.last] at hx
    have hx' : x = start := by simpa using hx.symm
    have hy' : y = (⟨start.x + d.x, start.y + d.y⟩ : QPoint) := by simpa using hy.symm
    rw [hx', hy']
    exact adjacent_direction start d hd
  · intro c hc
    rw [List.tail_append_of_ne_nil hne] at hc
    rcases List.mem_append.1 hc with h | h
    · exact hcur.cells c h
    · have : c = _ := List.mem_singleton.1 h
      rw [this]; exact hp

theorem findAllPaths_good (s : MainWindow) :
    ∀ (fuel : Nat) (start : QPoint) (cur : List QPoint) (paths : List (List QPoint))
      (r : Bool × List (List QPoint)),
      findAllPaths s fuel start cur paths = some r → PathTo s start cur →
      (∀ p ∈ paths, PathTo s s.endPoint p) → ∀ p ∈ r.2, PathTo s s.endPoint p := by
  intro fuel
  induction fuel with
  | zero => intro start cur paths r h; simp [findAllPaths] at h
  | succ n ih =>
    intro start cur paths r h hcur hpaths
    rw [findAllPaths] at h
    by_cases hend : start = s.endPoint
    · rw [if_pos hend] at h
      have hr : r = (true, paths ++ [cur]) := (Option.some.inj h).symm
      subst hr
      intro p hp
      rcases List.mem_append.1 hp with h1 | h1
      · exact hpaths p h1
      · have : p = cur := List.mem_singleton.1 h1
        rw [this, ← hend]; exact hcur
    · rw [if_neg hend] at h
      by_cases hcap : paths.length > 2000
      · rw [if_pos hcap] at h
        have hr : r = (false, paths) := (Option.some.inj h).symm
        subst hr
        exact hpaths
      · rw [if_neg hcap] at h
        cases hfold : directions.foldlM (tryDirection s (findAllPaths s n) start cur) paths with
        | none => rw [hfold] at h; simp at h
        | some ps =>
          rw [hfold] at h
          have hr : r = (!ps.isEmpty, ps) := (Option.some.inj h).symm
          subst hr
          refine foldlM_option_inv (tryDirection s (findAllPaths s n) start cur)
            (fun ps => ∀ p ∈ ps, PathTo s s.endPoint p) directions ?_ paths ps hpaths hfold
          intro b d b' hd hb hstep
          rcases tryDirection_cases s (findAllPaths s n) start cur b d with
            ⟨h1, _⟩ | ⟨hp, hn, h1⟩
          · rw [h1] at hstep
            exact (Option.some.inj hstep) ▸ hb
          · rw [h1] at hstep
            cases hrec : findAllPaths s n ⟨start.x + d.x, start.y + d.y⟩
                (cur ++ [⟨start.x + d.x, start.y + d.y⟩]) b with
            | none => rw [hrec] at hstep; simp at hstep
            | some r' =>
              rw [hrec] at hstep
              have : r'.2 = b' := by simpa using hstep
              rw [← this]
              exact ih _ _ b r' hrec (pathTo_extend s start cur d hd hcur hp hn) hb

theorem findAllPaths_terminates (s : MainWindow) :
    ∀ (fuel : Nat) (start : QPoint) (cur : List QPoint) (paths : List (List QPoint)),
      cur ≠ [] → cur.tail.Nodup → (∀ c ∈ cur.tail, inBounds s c) →
      cellCount s + 1 ≤ fuel + cur.tail.length →
      ∃ r, findAllPaths s fuel start cur paths = some r := by
  intro fuel
  induction fuel with
  | zero =>
    intro start cur paths _ hnd hin hfuel
    have := nodup_inBounds_length_le s cur.tail hnd hin
    omega
  | succ n ih =>
    intro start cur paths hne hnd hin hfuel
    rw [findAllPaths]
    by_cases hend : start = s.endPoint
    · rw [if_pos hend]; exact ⟨_, rfl⟩
    · rw [if_neg hend]
      by_cases hcap : paths.length > 2000
      · rw [if_pos hcap]; exact ⟨_, rfl⟩
      · rw [if_neg hcap]
        obtain ⟨ps, hps, _⟩ := foldlM_option_some
          (tryDirection s (findAllPaths s n) start cur) (fun _ => True) directions
          (by
            intro b d _ _
            rcases tryDirection_cases s (findAllPaths s n) start cur b d with
              ⟨h1, _⟩ | ⟨hp, hn, h1⟩
            · exact ⟨b, h1, trivial⟩
            · have htail : (cur ++ [(⟨start.x + d.x, start.y + d.y⟩ : QPoint)]).tail =
                  cur.tail ++ [⟨start.x + d.x, start.y + d.y⟩] :=
                List.tail_append_of_ne_nil hne
              obtain ⟨r', hr'⟩ := ih ⟨start.x + d.x, start.y + d.y⟩
                (cur ++ [⟨start.x + d.x, start.y + d.y⟩]) b (by simp)
                (by
                  rw [htail, List.nodup_append]
                  refine ⟨hnd, by simp, ?_⟩
                  intro a ha hb
                  have : a = _ := List.mem_singleton.1 hb
                  exact hn (List.mem_of_mem_tail (this ▸ ha)))
                (by
                  rw [htail]
                  intro c hc
                  rcases List.mem_append.1 hc with h | h
                  · exact hin c h
                  · have : c = _ := List.mem_singleton.1 h
                    rw [this]; exact hp.1)
                (by rw [htail]; simp only [List.length_append, List.length_singleton]; omega)
              exact ⟨r'.2, by rw [h1, hr']; rfl, trivial⟩)
          paths trivial
        rw [hps]
        exact ⟨_, rfl⟩

/-! ## Lemmas: the cap of the enumeration -/

theorem tryDirection_length_ge (s : MainWindow) (n : Nat) (start : QPoint) (cur : List QPoint)
    (ih : ∀ (start : QPoint) (cur : List QPoint) (paths : List (List QPoint))
      (r : Bool × List (List QPoint)), findAllPaths s n start cur paths = some r →
      min (paths.length + (simplePathsFrom s n start cur).length) 2001 ≤ r.2.length)
    (b b' : List (List QPoint)) (d : QPoint)
    (h : tryDirection s (findAllPaths s n) start cur b d = some b') :
    min (b.length + (extendTowards s (simplePathsFrom s n) start cur d).length) 2001 ≤
      b'.length := by
  unfold extendTowards
  rcases tryDirection_cases s (findAllPaths s n) start cur b d with ⟨h1, hnot⟩ | ⟨hp, hn, h1⟩
  · rw [h1] at h
    have : b = b' := Option.some.inj h
    subst this
    rw [if_neg hnot]
    simp
  · rw [h1] at h
    rw [if_pos ⟨hp, hn⟩]
    cases hrec : findAllPaths s n ⟨start.x + d.x, start.y + d.y⟩
        (cur ++ [⟨start.x + d.x, start.y + d.y⟩]) b with
    | none => rw [hrec] at h; simp at h
    | some r' =>
      rw [hrec] at h
      have : r'.2 = b' := by simpa using h
      rw [← this]
      exact ih _ _ b r' hrec

theorem foldlM_tryDirection_length_ge (s : MainWindow) (n : Nat) (start : QPoint)
    (cur : List QPoint)
    (ih : ∀ (start : QPoint) (cur : List QPoint) (paths : List (List QPoint))
      (r : Bool × List (List QPoint)), findAllPaths s n start cur paths = some r →
      min (paths.length + (simplePathsFrom s n start cur).length) 2001 ≤ r.2.length)
    (ds : List QPoint) :
    ∀ (b b' : List (List QPoint)),
      ds.foldlM (tryDirection s (findAllPaths s n) start cur) b = some b' →
      min (b.length + (ds.flatMap (extendTowards s (simplePathsFrom s n) start cur)).length)
        2001 ≤ b'.length := by
  induction ds with
  | nil =>
    intro b b' h
    simp only [List.foldlM_nil, Option.pure_def, Option.some.injEq] at h
    subst h
    simp
  | cons d t iht =>
    intro b b' h
    rw [List.foldlM_cons] at h
    cases hfa : tryDirection s (findAllPaths s n) start cur b d with
    | none => rw [hfa] at h; simp at h
    | some b1 =>
      rw [hfa] at h
      simp only [Option.bind_eq_bind, Option.some_bind] at h
      have h1 := tryDirection_length_ge s n start cur ih b b1 d hfa
      have h2 := iht b1 b' h
      rw [List.flatMap_cons, List.length_append]
      omega

/-- The capped enumeration returns at least as many paths as there are simple
continuations, up to 2001 of them. -/
theorem findAllPaths_length_ge (s : MainWindow) :
    ∀ (fuel : Nat) (start : QPoint) (cur : List QPoint) (paths : List (List QPoint))
      (r : Bool × List (List QPoint)), findAllPaths s fuel start cur paths = some r →
      min (paths.length + (simplePathsFrom s fuel start cur).length) 2001 ≤ r.2.length := by
  intro fuel
  induction fuel with
  | zero => intro start cur paths r h; simp [findAllPaths] at h
  | succ n ih =>
    intro start cur paths r h
    rw [findAllPaths] at h
    rw [simplePathsFrom]
    by_cases hend : start = s.endPoint
    · rw [if_pos hend] at h ⊢
      have hr : r = (true, paths ++ [cur]) := (Option.some.inj h).symm
      subst hr
      simp
    · rw [if_neg hend] at h ⊢
      by_cases hcap : paths.length > 2000
      · rw [if_pos hcap] at h
        have hr : r = (false, paths) := (Option.some.inj h).symm
        subst hr
        simp only
        omega
      · rw [if_neg hcap] at h
        cases hfold : directions.foldlM (tryDirection s (findAllPaths s n) start cur) paths with
        | none => rw [hfold] at h; simp at h
        | some ps =>
          rw [hfold] at h
          have hr : r = (!ps.isEmpty, ps) := (Option.some.inj h).symm
          subst hr
          exact foldlM_tryDirection_length_ge s n start cur ih directions paths ps hfold

/-! ## Lemmas: the routes of the ladder grid -/

theorem flatMap_directions_length (g : QPoint → List (List QPoint)) :
    (directions.flatMap g).length =
      (g ⟨0, 1⟩).length + (g ⟨1, 0⟩).length + (g ⟨0, -1⟩).length + (g ⟨-1, 0⟩).length := by
  simp [directions, List.flatMap_cons, Nat.add_assoc]

theorem ladder_passable (x r : Int) (hx0 : 0 ≤ x) (hx : x < 12) (hr : r = 0 ∨ r = 1) :
    passable ladderWindow ⟨x, r⟩ := by
  refine ⟨⟨hx0, hx, ?_, ?_⟩, ?_⟩
  · show 0 ≤ r
    omega
  · show r < 2
    omega
  · show (0 : Int) ≠ 1
    decide

theorem extendTowards_pos (s : MainWindow)
    (continuations : QPoint → List QPoint → List (List QPoint))
    (start : QPoint) (cur : List QPoint) (d next : QPoint)
    (hnext : next = ⟨start.x + d.x, start.y + d.y⟩)
    (hp : passable s next) (hn : next ∉ cur) :
    extendTowards s continuations start cur d = continuations next (cur ++ [next]) := by
  subst hnext
  unfold extendTowards
  rw [if_pos ⟨hp, hn⟩]

/-- From a cell of column `x` of the ladder, with nothing visited to the right
and the other cell of the column unvisited, at least `2 ^ (11 - x)` simple
continuations reach the end point. -/
theorem ladder_count :
    ∀ (k : Nat) (x r : Int) (cur : List QPoint) (fuel : Nat),
      0 ≤ x → x + k = 11 → (r = 0 ∨ r = 1) → (∀ c ∈ cur, c.x ≤ x) →
      (⟨x, 1 - r⟩ : QPoint) ∉ cur → 2 * k + 2 ≤ fuel →
      2 ^ k ≤ (simplePathsFrom ladderWindow fuel ⟨x, r⟩ cur).length := by
  intro k
  induction k with
  | zero =>
    intro x r cur fuel hx0 hxk hr hcols hother hfuel
    have hx : x = 11 := by simpa using hxk
    subst hx
    obtain ⟨f, rfl⟩ : ∃ f, fuel = f + 1 := ⟨fuel - 1, by omega⟩
    rw [simplePathsFrom]
    rcases hr with hr | hr
    · subst hr
      have hne : (⟨11, 0⟩ : QPoint) ≠ ladderWindow.endPoint := by decide
      rw [if_neg hne, flatMap_directions_length]
      have h1 : extendTowards ladderWindow (simplePathsFrom ladderWindow f) ⟨11, 0⟩ cur ⟨0, 1⟩
          = simplePathsFrom ladderWindow f ⟨11, 1⟩ (cur ++ [⟨11, 1⟩]) :=
        extendTowards_pos _ _ _ _ _ _ (by simp) (by decide) (by simpa using hother)
      rw [h1]
      obtain ⟨f', rfl⟩ : ∃ f', f = f' + 1 := ⟨f - 1, by omega⟩
      rw [simplePathsFrom, if_pos (by decide)]
      simp only [List.length_singleton, pow_zero]
      omega
    · subst hr
      rw [if_pos (by decide)]
      simp
  | succ k ih =>
    intro x r cur fuel hx0 hxk hr hcols hother hfuel
    have hx11 : x + 1 + (k : Int) = 11 := by push_cast at hxk; omega
    have hxlt : x < 11 := by omega
    obtain ⟨f, rfl⟩ : ∃ f, fuel = f + 1 := ⟨fuel - 1, by omega⟩
    obtain ⟨f2, rfl⟩ : ∃ f2, f = f2 + 1 := ⟨f - 1, by omega⟩
    have hne : (⟨x, r⟩ : QPoint) ≠ ladderWindow.endPoint := by
      intro h
      have := congrArg QPoint.x h
      simp [ladderWindow] at this
      omega
    have hne' : (⟨x, 1 - r⟩ : QPoint) ≠ ladderWindow.endPoint := by
      intro h
      have := congrArg QPoint.x h
      simp [ladderWindow] at this
      omega
    have hr' : 1 - r = 0 ∨ 1 - r = 1 := by omega
    -- the step to the right
    have hright : 2 ^ k ≤ (extendTowards ladderWindow
        (simplePathsFrom ladderWindow (f2 + 1)) ⟨x, r⟩ cur ⟨1, 0⟩).length := by
      have hn : (⟨x + 1, r⟩ : QPoint) ∉ cur := by
        intro h
        have := hcols _ h
        simp at this
      rw [extendTowards_pos _ _ _ _ _ ⟨x + 1, r⟩ (by simp)
        (ladder_passable _ _ (by omega) (by omega) hr) hn]
      apply ih (x + 1) r _ (f2 + 1) (by omega) hx11 hr
      · intro c hc
        rcases List.mem_append.1 hc with h | h
        · have := hcols c h; omega
        · have : c = _ := List.mem_singleton.1 h
          rw [this]
      · intro h
        rcases List.mem_append.1 h with h | h
        · have := hcols _ h
          simp at this
        · have := congrArg QPoint.y (List.mem_singleton.1 h)
          simp at this
          omega
      · omega
    -- the step to the other cell of the column, then to the right
    have hturn : 2 ^ k ≤ (simplePathsFrom ladderWindow (f2 + 1) ⟨x, 1 - r⟩
        (cur ++ [⟨x, 1 - r⟩])).length := by
      rw [simplePathsFrom, if_neg hne', flatMap_directions_length]
      have hn : (⟨x + 1, 1 - r⟩ : QPoint) ∉ cur ++ [⟨x, 1 - r⟩] := by
        intro h
        rcases List.mem_append.1 h with h | h
        · have := hcols _ h
          simp at this
        · have := congrArg QPoint.x (List.mem_singleton.1 h)
          simp at this
      have hstep := extendTowards_pos ladderWindow (simplePathsFrom ladderWindow f2)
        ⟨x, 1 - r⟩ (cur ++ [⟨x, 1 - r⟩]) ⟨1, 0⟩ ⟨x + 1, 1 - r⟩ (by simp)
        (ladder_passable _ _ (by omega) (by omega) hr') hn
      have hrec := ih (x + 1) (1 - r) ((cur ++ [⟨x, 1 - r⟩]) ++ [⟨x + 1, 1 - r⟩]) f2
        (by omega) hx11 hr'
        (by
          intro c hc
          rcases List.mem_append.1 hc with h | h
          · rcases List.mem_append.1 h with h | h
            · have := hcols c h; omega
            · have : c = _ := List.mem_singleton.1 h
              rw [this]; simp
          · have : c = _ := List.mem_singleton.1 h
            rw [this])
        (by
          intro h
          rcases List.mem_append.1 h with h | h
          · rcases List.mem_append.1 h with h | h
            · have := hcols _ h
              simp at this
            · have := congrArg QPoint.x (List.mem_singleton.1 h)
              simp at this
          · have := congrArg QPoint.y (List.mem_singleton.1 h)
            simp at this
            omega)
        (by omega)
      rw [hstep]
      omega
    rw [simplePathsFrom, if_neg hne, flatMap_directions_length]
    rw [pow_succ]
    rcases hr with hr | hr
    · subst hr
      have h1 := extendTowards_pos ladderWindow (simplePathsFrom ladderWindow (f2 + 1))
        ⟨x, 0⟩ cur ⟨0, 1⟩ ⟨x, 1 - 0⟩ (by simp)
        (ladder_passable _ _ hx0 (by omega) hr') hother
      rw [h1]
      omega
    · subst hr
      have h1 := extendTowards_pos ladderWindow (simplePathsFrom ladderWindow (f2 + 1))
        ⟨x, 1⟩ cur ⟨0, -1⟩ ⟨x, 1 - 1⟩ (by simp)
        (ladder_passable _ _ hx0 (by omega) hr') hother
      rw [h1]
      omega

/-! ## Lemmas: the loader -/

theorem parseRow_spec (i : Int) :
    ∀ (row : List Char) (j : Int) (maze : Int → Int → Int) (b : Bool) (m : Int → Int → Int),
      parseRow i row j maze = (b, m) →
      (∀ y x, (y ≠ i ∨ x < j) → m y x = maze y x) ∧
      (b = true →
        ∀ (k : Nat) (ch : Char), row[k]? = some ch →
          (m i (j + k) = 0 ↔ ch = '0') ∧ (m i (j + k) = 1 ↔ ch = '1')) ∧
      (b = false → ∃ ch ∈ row, ch ≠ '0' ∧ ch ≠ '1') := by
  intro row
  induction row with
  | nil =>
    intro j maze b m h
    simp only [parseRow, Prod.mk.injEq] at h
    obtain ⟨rfl, rfl⟩ := h
    refine ⟨fun _ _ _ => rfl, ?_, ?_⟩
    · intro _ k ch hk; simp at hk
    · intro h; cases h
  | cons c rest ih =>
    intro j maze b m h
    rw [parseRow] at h
    have key : ∀ (v : Int), (v = 0 ↔ c = '0') → (v = 1 ↔ c = '1') →
        parseRow i rest (j + 1) (setCell maze i j v) = (b, m) →
        (∀ y x, (y ≠ i ∨ x < j) → m y x = maze y x) ∧
        (b = true →
          ∀ (k : Nat) (ch : Char), (c :: rest)[k]? = some ch →
            (m i (j + k) = 0 ↔ ch = '0') ∧ (m i (j + k) = 1 ↔ ch = '1')) ∧
        (b = false → ∃ ch ∈ c :: rest, ch ≠ '0' ∧ ch ≠ '1') := by
      intro v hv0 hv1 hrec
      obtain ⟨hframe, htrue, hfalse⟩ := ih (j + 1) (setCell maze i j v) b m hrec
      refine ⟨?_, ?_, ?_⟩
      · intro y x hyx
        rw [hframe y x (by omega)]
        unfold setCell
        rw [if_neg (by omega)]
      · intro hb k ch hk
        cases k with
        | zero =>
          have hch : c = ch := by simpa using hk
          subst hch
          have hcell : m i (j + ((0 : Nat) : Int)) = v := by
            rw [hframe i _ (Or.inr (by simp))]
            unfold setCell
            rw [if_pos ⟨rfl, by simp⟩]
          rw [hcell]
          exact ⟨hv0, hv1⟩
        | succ k' =>
          have hk' : rest[k']? = some ch := by simpa using hk
          have := htrue hb k' ch hk'
          have e : j + ((k' + 1 : Nat) : Int) = j + 1 + (k' : Int) := by push_cast; ring
          rw [e]
          exact this
      · intro hb
        obtain ⟨ch, hch, hbad⟩ := hfalse hb
        exact ⟨ch, List.mem_cons_of_mem _ hch, hbad⟩
    by_cases h0 : c = '0'
    · rw [if_pos h0] at h
      exact key 0 (by simp [h0]) (by simp [h0]) h
    · rw [if_neg h0] at h
      by_cases h1 : c = '1'
      · rw [if_pos h1] at h
        exact key 1 (by simp [h1]) (by simp [h1]) h
      · rw [if_neg h1] at h
        simp only [Prod.mk.injEq] at h
        obtain ⟨rfl, rfl⟩ := h
        refine ⟨fun _ _ _ => rfl, fun h => Bool.noConfusion h, fun _ => ?_⟩
        exact ⟨c, List.mem_cons_self _ _, h0, h1⟩

theorem parseRows_spec (c : Int) :
    ∀ (lines : List (List Char)) (i : Int) (maze : Int → Int → Int) (b : Bool)
      (m : Int → Int → Int),
      parseRows c lines i maze = (b, m) →
      (∀ y x, y < i → m y x = maze y x) ∧
      (b = true →
        (∀ l ∈ lines, (l.length : Int) = c) ∧
        ∀ (k j : Nat) (l : List Char) (ch : Char), lines[k]? = some l → l[j]? = some ch →
          (m (i + k) j = 0 ↔ ch = '0') ∧ (m (i + k) j = 1 ↔ ch = '1')) ∧
      (b = false →
        ∃ l ∈ lines, (l.length : Int) ≠ c ∨ ∃ ch ∈ l, ch ≠ '0' ∧ ch ≠ '1') := by
  intro lines
  induction lines with
  | nil =>
    intro i maze b m h
    simp only [parseRows, Prod.mk.injEq] at h
    obtain ⟨rfl, rfl⟩ := h
    refine ⟨fun _ _ _ => rfl, fun _ => ⟨by simp, ?_⟩, fun h => Bool.noConfusion h⟩
    intro k j l ch hk; simp at hk
  | cons line rest ih =>
    intro i maze b m h
    rw [parseRows] at h
    by_cases hlen : (line.length : Int) ≠ c
    · rw [if_pos hlen] at h
      simp only [Prod.mk.injEq] at h
      obtain ⟨rfl, rfl⟩ := h
      refine ⟨fun _ _ _ => rfl, fun h => Bool.noConfusion h, fun _ => ?_⟩
      exact ⟨line, List.mem_cons_self _ _, Or.inl hlen⟩
    · rw [if_neg hlen] at h
      have hlen' : (line.length : Int) = c := not_not.1 hlen
      cases hrow : parseRow i line 0 maze with
      | mk b1 m1 =>
        obtain ⟨hf1, ht1, hb1⟩ := parseRow_spec i line 0 maze b1 m1 hrow
        rw [hrow] at h
        cases b1 with
        | false =>
          simp only [Prod.mk.injEq] at h
          obtain ⟨rfl, rfl⟩ := h
          refine ⟨fun y x hy => hf1 y x (Or.inl (by omega)), fun h => Bool.noConfusion h, fun _ => ?_⟩
          obtain ⟨ch, hch, hbad⟩ := hb1 rfl
          exact ⟨line, List.mem_cons_self _ _, Or.inr ⟨ch, hch, hbad⟩⟩
        | true =>
          simp only at h
          obtain ⟨hf2, ht2, hb2⟩ := ih (i + 1) m1 b m h
          refine ⟨?_, ?_, ?_⟩
          · intro y x hy
            rw [hf2 y x (by omega), hf1 y x (Or.inl (by omega))]
          · intro hb
            obtain ⟨hall, hcells⟩ := ht2 hb
            refine ⟨?_, ?_⟩
            · intro l hl
              rcases List.mem_cons.1 hl with h1 | h1
              · rw [h1]; exact hlen'
              · exact hall l h1
            · intro k j l ch hk hj
              cases k with
              | zero =>
                have hl : line = l := by simpa using hk
                subst hl
                have := ht1 rfl j ch hj
                have e : m (i + ((0 : Nat) : Int)) j = m1 i (0 + (j : Int)) := by
                  rw [hf2 _ _ (by simp)]
                  simp
                rw [e]
                exact this
              | succ k' =>
                have hk' : rest[k']? = some l := by simpa using hk
                have := hcells k' j l ch hk' hj
                have e : i + ((k' + 1 : Nat) : Int) = i + 1 + (k' : Int) := by push_cast; ring
                rw [e]
                exact this
          · intro hb
            obtain ⟨l, hl, hbad⟩ := hb2 hb
            exact ⟨l, List.mem_cons_of_mem _ hl, hbad⟩

theorem placeEndpoints_true (s : MainWindow) (h : (placeEndpoints s).1 = true) :
    ∃ startPoint endPoint, selectStart s = some startPoint ∧
      selectEnd { s with startPoint := startPoint } = some endPoint ∧
      (placeEndpoints s).2.maze = s.maze ∧ (placeEndpoints s).2.rows = s.rows ∧
      (placeEndpoints s).2.cols = s.cols ∧
      (placeEndpoints s).2.startPoint = startPoint ∧
      (placeEndpoints s).2.endPoint = endPoint := by
  cases h1 : selectStart s with
  | none => simp [placeEndpoints, h1] at h
  | some sp =>
    cases h2 : selectEnd { s with startPoint := sp } with
    | none => simp [placeEndpoints, h1, h2] at h
    | some ep =>
      refine ⟨sp, ep, rfl, h2, ?_, ?_, ?_, ?_, ?_⟩ <;> simp [placeEndpoints, h1, h2]

theorem placeEndpoints_false (s : MainWindow) (h : (placeEndpoints s).1 = false) :
    selectStart s = none ∨
      ∃ startPoint, selectEnd { s with startPoint := startPoint } = none := by
  unfold placeEndpoints at h
  cases h1 : selectStart s with
  | none => exact Or.inl rfl
  | some sp =>
    rw [h1] at h
    simp only at h
    cases h2 : selectEnd { s with startPoint := sp } with
    | none => exact Or.inr ⟨sp, h2⟩
    | some ep => rw [h2] at h; simp at h

/-- The shape of a successful load. -/
theorem loadMazeFromFile_true (s : MainWindow) (content : List (List Char))
    (h : (loadMazeFromFile s content).1 = true) :
    content.map trimmed ≠ [] ∧ ((content.map trimmed).length : Int) ≤ 100 ∧
    (((content.map trimmed).headD []).length : Int) ≤ 100 ∧
    ∃ m, parseRows (((content.map trimmed).headD []).length : Int)
        (content.map trimmed) 0 s.maze = (true, m) ∧
      (loadMazeFromFile s content) = placeEndpoints
        { s with maze := m, rows := ((content.map trimmed).length : Int),
                 cols := (((content.map trimmed).headD []).length : Int),
                 startPoint := ⟨0, 0⟩,
                 endPoint := ⟨(((content.map trimmed).headD []).length : Int) - 1,
                              ((content.map trimmed).length : Int) - 1⟩ } := by
  unfold loadMazeFromFile at h ⊢
  simp only at h ⊢
  generalize content.map trimmed = lines at h ⊢
  by_cases hemp : lines.isEmpty = true
  · rw [if_pos hemp] at h; simp at h
  · rw [if_neg hemp] at h ⊢
    have hne : lines ≠ [] := by
      intro h0; subst h0; exact hemp rfl
    by_cases hbig : (lines.length : Int) > 100 ∨ ((lines.headD []).length : Int) > 100
    · rw [if_pos hbig] at h; simp at h
    · rw [if_neg hbig] at h ⊢
      simp only [not_or, not_lt, gt_iff_lt] at hbig
      refine ⟨hne, hbig.1, hbig.2, ?_⟩
      cases hparse : parseRows ((lines.headD []).length : Int) lines 0 s.maze with
      | mk b m =>
        rw [hparse] at h
        cases b with
        | false => simp at h
        | true => exact ⟨m, rfl, rfl⟩

/-! ## Lemmas: the scan order -/

theorem mem_scanCells (rows cols : Int) (p : QPoint) :
    p ∈ scanCells rows cols ↔ 0 ≤ p.x ∧ p.x < cols ∧ 0 ≤ p.y ∧ p.y < rows := by
  unfold scanCells
  simp only [List.mem_flatMap, List.mem_range, List.mem_map]
  constructor
  · rintro ⟨y, hy, x, hx, rfl⟩
    have h1 := Int.lt_toNat.1 hy
    have h2 := Int.lt_toNat.1 hx
    simp only
    omega
  · rintro ⟨h1, h2, h3, h4⟩
    have e1 : (p.x.toNat : Int) = p.x := Int.toNat_of_nonneg h1
    have e2 : (p.y.toNat : Int) = p.y := Int.toNat_of_nonneg h3
    refine ⟨p.y.toNat, Int.lt_toNat.2 (by omega), p.x.toNat, Int.lt_toNat.2 (by omega), ?_⟩
    cases p with
    | mk px py =>
      simp only [QPoint.mk.injEq]
      exact ⟨e1, e2⟩

theorem scanCells_nodup (rows cols : Int) : (scanCells rows cols).Nodup := by
  unfold scanCells
  rw [List.nodup_flatMap]
  refine ⟨?_, ?_⟩
  · intro i _
    refine List.Nodup.map_on ?_ (List.nodup_range _)
    intro a _ b _ hab
    have := congrArg QPoint.x hab
    simpa using this
  · refine List.Pairwise.imp ?_ (List.nodup_range rows.toNat)
    intro a b hab
    simp only [Function.onFun]
    rw [List.disjoint_left]
    intro p hp hq
    obtain ⟨x, _, rfl⟩ := List.mem_map.1 hp
    obtain ⟨x', _, h'⟩ := List.mem_map.1 hq
    have := congrArg QPoint.y h'
    simp only [Nat.cast_inj] at this
    exact hab this.symm

theorem scanCells_head (rows cols : Int) (hr : 1 ≤ rows) (hc : 1 ≤ cols) :
    ∃ rest, scanCells rows cols = ⟨0, 0⟩ :: rest := by
  obtain ⟨n, hn⟩ : ∃ n, rows.toNat = n + 1 := ⟨rows.toNat - 1, by omega⟩
  obtain ⟨k, hk⟩ : ∃ k, cols.toNat = k + 1 := ⟨cols.toNat - 1, by omega⟩
  unfold scanCells
  rw [hn, hk, List.range_succ_eq_map n, List.flatMap_cons, List.range_succ_eq_map k,
    List.map_cons, List.cons_append]
  exact ⟨_, rfl⟩

theorem scanCells_last (rows cols : Int) (hr : 1 ≤ rows) (hc : 1 ≤ cols) :
    ∃ init, scanCells rows cols = init ++ [⟨cols - 1, rows - 1⟩] := by
  obtain ⟨n, hn⟩ : ∃ n, rows.toNat = n + 1 := ⟨rows.toNat - 1, by omega⟩
  obtain ⟨k, hk⟩ : ∃ k, cols.toNat = k + 1 := ⟨cols.toNat - 1, by omega⟩
  have e1 : ((k : Nat) : Int) = cols - 1 := by omega
  have e2 : ((n : Nat) : Int) = rows - 1 := by omega
  unfold scanCells
  rw [hn, hk, List.range_succ n, List.flatMap_append, List.range_succ k]
  simp only [List.flatMap_cons, List.flatMap_nil, List.append_nil, List.map_append,
    List.map_cons, List.map_nil]
  rw [e1, e2, ← List.append_assoc]
  exact ⟨_, rfl⟩

theorem append_cons_unique {α : Type} (a : α) :
    ∀ (l1 l2 m1 m2 : List α), l1 ++ a :: l2 = m1 ++ a :: m2 → a ∉ l1 → a ∉ m1 →
      l1 = m1 ∧ l2 = m2 := by
  intro l1
  induction l1 with
  | nil =>
    intro l2 m1 m2 h _ hm
    cases m1 with
    | nil => simpa using h
    | cons b t =>
      simp only [List.nil_append, List.cons_append, List.cons.injEq] at h
      exact absurd (List.mem_cons.2 (Or.inl h.1)) hm
  | cons c t ih =>
    intro l2 m1 m2 h hl hm
    cases m1 with
    | nil =>
      simp only [List.nil_append, List.cons_append, List.cons.injEq] at h
      exact absurd (List.mem_cons.2 (Or.inl h.1.symm)) hl
    | cons b t' =>
      simp only [List.cons_append, List.cons.injEq] at h
      obtain ⟨h1, h2⟩ := ih l2 t' m2 h.2
        (fun hx => hl (List.mem_cons_of_mem _ hx)) (fun hx => hm (List.mem_cons_of_mem _ hx))
      exact ⟨by rw [h.1, h1], h2⟩

/-- In a list without repetitions, when the first and the last element that
satisfy `P` are the same element, no other element satisfies `P`. -/
theorem first_eq_last_unique {α : Type} (P : α → Bool) (l : List α) (a : α)
    (hnd : l.Nodup) (h1 : l.find? P = some a) (h2 : l.reverse.find? P = some a) :
    ∀ x ∈ l, P x = true → x = a := by
  obtain ⟨_, as, bs, hl, has⟩ := List.find?_eq_some.1 h1
  obtain ⟨_, cs, ds, hr, hcs⟩ := List.find?_eq_some.1 h2
  have hl' : l = ds.reverse ++ a :: cs.reverse := by
    have := congrArg List.reverse hr
    simpa using this
  have hnd1 := hnd
  rw [hl] at hnd1
  have ha1 : a ∉ as := by
    intro hmem
    rw [List.nodup_append] at hnd1
    exact hnd1.2.2 hmem (List.mem_cons_self _ _)
  have hnd2 := hnd
  rw [hl'] at hnd2
  have ha2 : a ∉ ds.reverse := by
    intro hmem
    rw [List.nodup_append] at hnd2
    exact hnd2.2.2 hmem (List.mem_cons_self _ _)
  obtain ⟨_, hbs⟩ := append_cons_unique a as bs ds.reverse cs.reverse (hl ▸ hl') ha1 ha2
  intro x hx hP
  rw [hl] at hx
  rcases List.mem_append.1 hx with h | h
  · have := has x h
    simp [hP] at this
  · rcases List.mem_cons.1 h with h | h
    · exact h
    · rw [hbs] at h
      have := hcs x (List.mem_reverse.1 h)
      simp [hP] at this

theorem parseRow_legal (i : Int) :
    ∀ (row : List Char) (j : Int) (maze m : Int → Int → Int),
      parseRow i row j maze = (true, m) → ∀ ch ∈ row, ch = '0' ∨ ch = '1' := by
  intro row
  induction row with
  | nil => intro j maze m _ ch hch; cases hch
  | cons c rest ih =>
    intro j maze m h ch hch
    rw [parseRow] at h
    by_cases h0 : c = '0'
    · rw [if_pos h0] at h
      rcases List.mem_cons.1 hch with h1 | h1
      · exact Or.inl (h1 ▸ h0)
      · exact ih _ _ _ h ch h1
    · rw [if_neg h0] at h
      by_cases h1 : c = '1'
      · rw [if_pos h1] at h
        rcases List.mem_cons.1 hch with h2 | h2
        · exact Or.inr (h2 ▸ h1)
        · exact ih _ _ _ h ch h2
      · rw [if_neg h1] at h
        simp at h

theorem parseRows_legal (c : Int) :
    ∀ (lines : List (List Char)) (i : Int) (maze m : Int → Int → Int),
      parseRows c lines i maze = (true, m) →
      ∀ l ∈ lines, ∀ ch ∈ l, ch = '0' ∨ ch = '1' := by
  intro lines
  induction lines with
  | nil => intro i maze m _ l hl; cases hl
  | cons line rest ih =>
    intro i maze m h l hl
    rw [parseRows] at h
    by_cases hlen : (line.length : Int) ≠ c
    · rw [if_pos hlen] at h; simp at h
    · rw [if_neg hlen] at h
      cases hrow : parseRow i line 0 maze with
      | mk b1 m1 =>
        rw [hrow] at h
        cases b1 with
        | false => simp at h
        | true =>
          simp only at h
          rcases List.mem_cons.1 hl with h1 | h1
          · rw [h1]; exact parseRow_legal i line 0 maze m1 hrow
          · exact ih _ _ _ h l h1

/-- What a successful load guarantees about the grid. -/
theorem loadMazeFromFile_grid (s : MainWindow) (content : List (List Char))
    (h : (loadMazeFromFile s content).1 = true) :
    content.map trimmed ≠ [] ∧ (content.map trimmed).length ≤ 100 ∧
    ((content.map trimmed).headD []).length ≤ 100 ∧
    (loadMazeFromFile s content).2.rows = ((content.map trimmed).length : Int) ∧
    (loadMazeFromFile s content).2.cols = (((content.map trimmed).headD []).length : Int) ∧
    (∀ l ∈ content.map trimmed, l.length = ((content.map trimmed).headD []).length) ∧
    (∀ l ∈ content.map trimmed, ∀ ch ∈ l, ch = '0' ∨ ch = '1') ∧
    (∀ (i j : Nat) (l : List Char) (ch : Char),
      (content.map trimmed)[i]? = some l → l[j]? = some ch →
        ((loadMazeFromFile s content).2.maze i j = 0 ↔ ch = '0') ∧
        ((loadMazeFromFile s content).2.maze i j = 1 ↔ ch = '1')) := by
  obtain ⟨hne, hN, hM, m, hparse, hload⟩ := loadMazeFromFile_true s content h
  rw [hload] at h
  obtain ⟨sp, ep, _, _, hmaze, hrows, hcols, _, _⟩ := placeEndpoints_true _ h
  obtain ⟨_, htrue, _⟩ := parseRows_spec _ _ _ _ _ _ hparse
  obtain ⟨hlen, hcells⟩ := htrue rfl
  rw [hload]
  refine ⟨hne, by exact_mod_cast hN, by exact_mod_cast hM, hrows, hcols, ?_, ?_, ?_⟩
  · intro l hl
    exact_mod_cast hlen l hl
  · exact parseRows_legal _ _ _ _ _ hparse
  · intro i j l ch hi hj
    rw [hmaze]
    have := hcells i j l ch hi hj
    simpa using this

/-- What a successful load of a grid with at least one column guarantees about
the start and the end: they are the first and the last passage in scan order. -/
theorem loadMazeFromFile_scan (s : MainWindow) (content : List (List Char))
    (h : (loadMazeFromFile s content).1 = true)
    (hM : 1 ≤ ((content.map trimmed).headD []).length) :
    (scanCells (loadMazeFromFile s content).2.rows (loadMazeFromFile s content).2.cols).find?
        (fun p => decide ((loadMazeFromFile s content).2.maze p.y p.x = 0)) =
      some (loadMazeFromFile s content).2.startPoint ∧
    (scanCells (loadMazeFromFile s content).2.rows
        (loadMazeFromFile s content).2.cols).reverse.find?
        (fun p => decide ((loadMazeFromFile s content).2.maze p.y p.x = 0)) =
      some (loadMazeFromFile s content).2.endPoint := by
  obtain ⟨hne, _, _, hrows, hcols, hlen, hlegal, hcells⟩ := loadMazeFromFile_grid s content h
  obtain ⟨_, _, _, m, _, hload⟩ := loadMazeFromFile_true s content h
  have h' := h
  rw [hload] at h'
  obtain ⟨sp, ep, hsp, hep, hmaze, _, _, hst, hen⟩ := placeEndpoints_true _ h'
  rw [← hload] at hmaze hst hen
  have hmaze' : (loadMazeFromFile s content).2.maze = m := hmaze
  generalize hlines : content.map trimmed = lines at *
  have hN : 1 ≤ lines.length := by
    cases lines with
    | nil => exact absurd rfl hne
    | cons a t => simp
  have hr1 : (1 : Int) ≤ (loadMazeFromFile s content).2.rows := by rw [hrows]; exact_mod_cast hN
  have hc1 : (1 : Int) ≤ (loadMazeFromFile s content).2.cols := by rw [hcols]; exact_mod_cast hM
  -- every cell of the grid holds 0 or 1
  have hcell : ∀ (i j : Nat), i < lines.length → j < (lines.headD []).length →
      (loadMazeFromFile s content).2.maze i j = 0 ∨
      (loadMazeFromFile s content).2.maze i j = 1 := by
    intro i j hi hj
    have hl : lines[i]? = some lines[i] := List.getElem?_eq_getElem hi
    have hlen' := hlen lines[i] (List.getElem_mem _)
    have hj' : j < lines[i].length := by omega
    have hch : lines[i][j]? = some lines[i][j] := List.getElem?_eq_getElem hj'
    have := hcells i j _ _ hl hch
    rcases hlegal lines[i] (List.getElem_mem _) _ (List.getElem_mem hj') with h0 | h1
    · exact Or.inl (this.1.2 h0)
    · exact Or.inr (this.2.2 h1)
  rw [hst, hen, hmaze', hrows, hcols]
  rw [hmaze'] at hcell
  refine ⟨?_, ?_⟩
  · unfold selectStart at hsp
    simp only at hsp
    by_cases hw : m 0 0 = 1
    · rw [if_pos hw] at hsp
      exact hsp
    · rw [if_neg hw] at hsp
      have hsp' : sp = ⟨0, 0⟩ := (Option.some.inj hsp).symm
      have h00 : m 0 0 = 0 := by
        have := hcell 0 0 (by omega) (by omega)
        simp only [Nat.cast_zero] at this
        rcases this with h0 | h1
        · exact h0
        · exact absurd h1 hw
      obtain ⟨rest, hrest⟩ := scanCells_head (lines.length : Int) ((lines.headD []).length : Int)
        (by exact_mod_cast hN) (by exact_mod_cast hM)
      rw [hrest, hsp', List.find?_cons_of_pos]
      simpa using h00
  · unfold selectEnd at hep
    simp only at hep
    have hcast1 : (((lines.headD []).length - 1 : Nat) : Int) =
        ((lines.headD []).length : Int) - 1 := by omega
    have hcast2 : ((lines.length - 1 : Nat) : Int) = (lines.length : Int) - 1 := by omega
    by_cases hw : m ((lines.length : Int) - 1) (((lines.headD []).length : Int) - 1) = 1
    · rw [if_pos hw] at hep
      exact hep
    · rw [if_neg hw] at hep
      have hep' : ep = ⟨((lines.headD []).length : Int) - 1, (lines.length : Int) - 1⟩ :=
        (Option.some.inj hep).symm
      have hlast : m ((lines.length : Int) - 1) (((lines.headD []).length : Int) - 1) = 0 := by
        have := hcell (lines.length - 1) ((lines.headD []).length - 1) (by omega) (by omega)
        rw [hcast1, hcast2] at this
        rcases this with h0 | h1
        · exact h0
        · exact absurd h1 hw
      obtain ⟨init, hinit⟩ := scanCells_last (lines.length : Int)
        ((lines.headD []).length : Int) (by exact_mod_cast hN) (by exact_mod_cast hM)
      rw [hinit, hep', List.reverse_append, List.reverse_singleton, List.singleton_append,
        List.find?_cons_of_pos]
      simpa using hlast

/-! ## Theorems: playback -/

theorem onAnimationStep_iterate (s : MainWindow) (path : List QPoint) (i : Nat)
    (h : i ≤ path.length) :
    (onAnimationStep^[i] (startPathAnimation s path)).currentPath = path.take i ∧
    (onAnimationStep^[i] (startPathAnimation s path)).animationIndex = (i : Int) ∧
    (onAnimationStep^[i] (startPathAnimation s path)).animatedPath = path := by
  induction i with
  | zero => simp [startPathAnimation]
  | succ n ih =>
    obtain ⟨h1, h2, h3⟩ := ih (Nat.le_of_succ_le h)
    have hn : n < path.length := h
    rw [Function.iterate_succ_apply']
    generalize onAnimationStep^[n] (startPathAnimation s path) = t at h1 h2 h3
    have hlt : ¬ (t.animationIndex ≥ (t.animatedPath.length : Int)) := by
      rw [h2, h3]; omega
    have hget : t.animatedPath[t.animationIndex.toNat]? = some (path.get ⟨n, hn⟩) := by
      rw [h2, h3]; simp
    have hstep : onAnimationStep t =
        { t with currentPath := t.currentPath ++ [path.get ⟨n, hn⟩],
                 animationIndex := t.animationIndex + 1 } := by
      rw [onAnimationStep, if_neg hlt, hget]
    rw [hstep]
    refine ⟨?_, ?_, h3⟩
    · show t.currentPath ++ [path.get ⟨n, hn⟩] = List.take (n + 1) path
      rw [h1, List.take_succ]
      simp [List.getElem?_eq_getElem hn]
    · show t.animationIndex + 1 = ((n + 1 : Nat) : Int)
      rw [h2]; push_cast; rfl

/-- C8: after `startPathAnimation path` and `i ≤ K` calls of `onAnimationStep`
the revealed sequence is the first `i` cells of `path`, the cursor is `i`, and
playback is finished exactly when `i = K`; starting the empty path is finished
at once with nothing revealed. -/
theorem playback_reveals_take (s : MainWindow) (path : List QPoint) (i : Nat)
    (h : i ≤ path.length) :
    (onAnimationStep^[i] (startPathAnimation s path)).currentPath = path.take i ∧
    (onAnimationStep^[i] (startPathAnimation s path)).animationIndex = (i : Int) ∧
    (playbackFinished (onAnimationStep^[i] (startPathAnimation s path)) ↔
      i = path.length) ∧
    playbackFinished (startPathAnimation s []) ∧
    (startPathAnimation s []).currentPath = [] := by
  obtain ⟨h1, h2, h3⟩ := onAnimationStep_iterate s path i h
  refine ⟨h1, h2, ?_, ?_, rfl⟩
  · unfold playbackFinished
    rw [h2, h3]
    omega
  · simp [playbackFinished, startPathAnimation]

/-- Witness for C8 on a two-cell path after one step. -/
theorem playback_reveals_take_witness :
    (onAnimationStep^[1] (startPathAnimation
        ⟨21, 21, -1, 0, ⟨1, 1⟩, ⟨19, 19⟩, fun _ _ => 1, [], [], [], []⟩
        [⟨1, 1⟩, ⟨1, 2⟩])).currentPath = [⟨1, 1⟩] :=
  (playback_reveals_take _ [⟨1, 1⟩, ⟨1, 2⟩] 1 (by decide)).1

/-! ## Theorems: A* search -/

/-- The 5×5 example of the specification: the path found from (0,0) to (4,4)
runs through the gap (2,2) and has 8 steps. -/
theorem aStar_gapWindow :
    aStar gapWindow [] [] =
      some (true, [⟨0, 0⟩, ⟨0, 1⟩, ⟨0, 2⟩, ⟨1, 2⟩, ⟨2, 2⟩, ⟨3, 2⟩, ⟨3, 3⟩, ⟨3, 4⟩, ⟨4, 4⟩]) := by
  decide!

/-- C1 (defect of the code): on `detourWindow` the start (4,0) and the end (2,4)
are in-bounds passages and nothing is blocked, `aStar` returns true with a path
of 10 steps, and yet a route of 8 steps exists, so the returned length is not
the breadth-first distance. -/
theorem aStar_detour_not_shortest :
    inBounds detourWindow detourWindow.startPoint ∧
    inBounds detourWindow detourWindow.endPoint ∧
    detourWindow.maze 0 4 = 0 ∧ detourWindow.maze 4 2 = 0 ∧
    aStar detourWindow [] [] =
      some (true, [⟨4, 0⟩, ⟨4, 1⟩, ⟨3, 1⟩, ⟨3, 2⟩, ⟨3, 3⟩, ⟨4, 3⟩, ⟨4, 4⟩, ⟨4, 5⟩, ⟨3, 5⟩,
        ⟨2, 5⟩, ⟨2, 4⟩]) ∧
    isRoute detourWindow [] ⟨4, 0⟩ ⟨2, 4⟩
      [⟨4, 0⟩, ⟨4, 1⟩, ⟨3, 1⟩, ⟨3, 2⟩, ⟨2, 2⟩, ⟨1, 2⟩, ⟨1, 3⟩, ⟨1, 4⟩, ⟨2, 4⟩] := by
  refine ⟨by decide, by decide, by decide, by decide, by decide!, by decide, by decide, ?_,
    by decide⟩
  simp only [List.chain'_cons, List.chain'_singleton, and_true]
  decide

/-- C2 as stated fails when the blocked set contains the start: on the 1×2 open
grid with (0,0) blocked, `aStar` from (0,0) to (1,0) returns true although no
route avoids the blocked set. -/
theorem aStar_blocked_start :
    inBounds pairWindow pairWindow.startPoint ∧ inBounds pairWindow pairWindow.endPoint ∧
    pairWindow.maze 0 0 = 0 ∧ pairWindow.maze 0 1 = 0 ∧
    aStar pairWindow [] [⟨0, 0⟩] = some (true, [⟨0, 0⟩, ⟨1, 0⟩]) ∧
    ¬ ∃ route, isRoute pairWindow [⟨0, 0⟩] ⟨0, 0⟩ ⟨1, 0⟩ route := by
  refine ⟨by decide, by decide, by decide, by decide, by decide!, ?_⟩
  rintro ⟨route, hhead, _, _, hwalk⟩
  cases route with
  | nil => simp at hhead
  | cons a t =>
    have ha : a = ⟨0, 0⟩ := by simpa using hhead
    have := (hwalk a (List.mem_cons_self _ _)).2.2
    rw [ha] at this
    exact this (List.mem_singleton.2 rfl)

/-- C2 (amended): when the start is an in-bounds passage outside the blocked set,
`aStar` returns, and it returns false exactly when no route of walkable cells
leads from the start to the end. -/
theorem aStar_false_iff_no_route (s : MainWindow) (path0 blocked : List QPoint)
    (hs : inBounds s s.startPoint) (hp : s.maze s.startPoint.y s.startPoint.x = 0)
    (hb : s.startPoint ∉ blocked) :
    ∃ b path, aStar s path0 blocked = some (b, path) ∧
      (b = false ↔ ¬ ∃ route, isRoute s blocked s.startPoint s.endPoint route) :=
  aStar_iff_route s path0 blocked ⟨hs, by rw [hp]; decide, hb⟩

/-- Witness for C2 on the grid split by a solid wall. -/
theorem aStar_false_iff_no_route_witness :
    ∃ b path, aStar splitWindow [] [] = some (b, path) ∧
      (b = false ↔ ¬ ∃ route, isRoute splitWindow [] ⟨0, 0⟩ ⟨2, 2⟩ route) :=
  aStar_false_iff_no_route splitWindow [] [] (by decide) (by decide) (by decide)

/-- On the grid split by a solid wall `aStar` returns false. -/
theorem aStar_splitWindow : aStar splitWindow [⟨9, 9⟩] [] = some (false, [⟨9, 9⟩]) := by
  decide!

/-- C3: whenever `aStar` returns true the path starts at the start point, ends at
the end point, moves by one 4-neighbour step at a time, repeats no cell, and
every cell after the first is in bounds, not a wall and not blocked. -/
theorem aStar_path_wellformed (s : MainWindow) (path0 blocked path : List QPoint)
    (h : aStar s path0 blocked = some (true, path)) :
    path.head? = some s.startPoint ∧ path.getLast? = some s.endPoint ∧
      path.Chain' adjacent ∧ path.Nodup ∧ ∀ c ∈ path.tail, walkable s blocked c :=
  aStar_true_path s path0 blocked path h

/-- Witness for C3 on the 5×5 grid with a gap. -/
theorem aStar_path_wellformed_witness :
    ([⟨0, 0⟩, ⟨0, 1⟩, ⟨0, 2⟩, ⟨1, 2⟩, ⟨2, 2⟩, ⟨3, 2⟩, ⟨3, 3⟩, ⟨3, 4⟩, ⟨4, 4⟩] :
      List QPoint).Nodup :=
  (aStar_path_wellformed gapWindow [] []
    [⟨0, 0⟩, ⟨0, 1⟩, ⟨0, 2⟩, ⟨1, 2⟩, ⟨2, 2⟩, ⟨3, 2⟩, ⟨3, 3⟩, ⟨3, 4⟩, ⟨4, 4⟩]
    (by decide!)).2.2.2.1

/-- C14 (defect of the code): on `reexpandWindow` the neighbours of the cell
(0,3) are expanded twice in one `aStar` call, and the staleness test of the
loop is false for every queue entry, because it compares the node with itself
after the node was updated in place. -/
theorem aStar_reexpands_cell :
    (aStarLoop reexpandWindow [] (aStarFuel reexpandWindow) (aStarInit reexpandWindow)).map
        (fun r => r.2.expanded.count ⟨0, 3⟩) = some 2 ∧
    ∀ (allNodes : List Node) (current : QPoint),
      (match findNode allNodes current with
        | some it => decide ((deref allNodes current).f > it.f)
        | none => false) = false := by
  refine ⟨by decide!, stale_test_false⟩

/-! ## Theorems: path enumeration -/

/-- C6 (defect of the code): on the open 2×12 grid, enumerated from (0,0) to
(11,1) with an empty result list and the path under construction `[start]`,
`findAllPaths` returns and collects more than 2000 paths. -/
theorem enumeratePaths_ladder_exceeds_cap :
    ∃ r, enumeratePaths ladderWindow = some r ∧ 2000 < r.2.length := by
  obtain ⟨r, hr⟩ := findAllPaths_terminates ladderWindow (cellCount ladderWindow + 2)
    ladderWindow.startPoint [ladderWindow.startPoint] [] (by simp) (by simp) (by simp)
    (by simp)
  refine ⟨r, hr, ?_⟩
  have h1 := findAllPaths_length_ge ladderWindow _ _ _ _ r hr
  have hfuel : cellCount ladderWindow + 2 = 26 := by decide
  have h2 := ladder_count 11 0 0 [ladderWindow.startPoint] (cellCount ladderWindow + 2)
    (le_refl _) (by norm_num) (Or.inl rfl)
    (by
      intro c hc
      have : c = ladderWindow.startPoint := List.mem_singleton.1 hc
      rw [this]
      decide)
    (by decide) (by rw [hfuel]; omega)
  have h3 : (2 : Nat) ^ 11 = 2048 := by norm_num
  have h4 : (⟨0, 0⟩ : QPoint) = ladderWindow.startPoint := rfl
  rw [h4, h3] at h2
  have h5 : ([] : List (List QPoint)).length = 0 := rfl
  rw [h5, Nat.zero_add] at h1
  exact lt_of_lt_of_le (by omega) h1

/-- C7: the enumeration started as `on_btnNextPath_clicked` does returns, and
every path it returns begins at the start point, ends at the end point,
repeats no cell, moves by one 4-neighbour step at a time, and has every cell
after the first in bounds and not a wall. -/
theorem enumeratePaths_wellformed (s : MainWindow) :
    ∃ r, enumeratePaths s = some r ∧
      ∀ p ∈ r.2, p.head? = some s.startPoint ∧ p.getLast? = some s.endPoint ∧
        p.Nodup ∧ p.Chain' adjacent ∧
        ∀ c ∈ p.tail, inBounds s c ∧ s.maze c.y c.x ≠ 1 := by
  obtain ⟨r, hr⟩ := findAllPaths_terminates s (cellCount s + 2)
    s.startPoint [s.startPoint] [] (by simp) (by simp) (by simp) (by simp)
  refine ⟨r, hr, ?_⟩
  intro p hp
  have h := findAllPaths_good s _ _ _ _ r hr
    ⟨rfl, rfl, by simp, List.chain'_singleton _, by simp⟩ (by simp) p hp
  exact ⟨h.head, h.last, h.nodup, h.chain, h.cells⟩


/-! ## Theorems: the loader -/

/-- C9 as stated fails for whitespace at the ends of a line: the content with the
single line `"0 "` holds a character that is neither `'0'` nor `'1'` and is
loaded all the same, because every line is trimmed first. -/
theorem loadMazeFromFile_accepts_space :
    (∃ ch ∈ ['0', ' '], ch ≠ '0' ∧ ch ≠ '1') ∧
    (loadMazeFromFile (blankWindow 1) [['0', ' ']]).1 = true := by
  decide

/-- C9 (amended, in terms of the trimmed lines): the load returns false when
there is no line, when a trimmed line differs in length from the first, when a
trimmed line holds a character other than `'0'` and `'1'`, or when there are
more than 100 lines or more than 100 columns; and a successful load has
between 1 and 100 lines, at most 100 columns, `rows` and `cols` equal to these
counts, and `maze[i][j]` equal to 0 exactly where trimmed line `i` has `'0'` at
column `j` and to 1 exactly where it has `'1'`. -/
theorem loadMazeFromFile_format (s : MainWindow) (content : List (List Char)) :
    ((content.map trimmed = [] ∨
      (∃ l ∈ content.map trimmed, l.length ≠ ((content.map trimmed).headD []).length) ∨
      (∃ l ∈ content.map trimmed, ∃ ch ∈ l, ch ≠ '0' ∧ ch ≠ '1') ∨
      (content.map trimmed).length > 100 ∨
      ((content.map trimmed).headD []).length > 100) →
      (loadMazeFromFile s content).1 = false) ∧
    ((loadMazeFromFile s content).1 = true →
      1 ≤ (content.map trimmed).length ∧ (content.map trimmed).length ≤ 100 ∧
      ((content.map trimmed).headD []).length ≤ 100 ∧
      (loadMazeFromFile s content).2.rows = ((content.map trimmed).length : Int) ∧
      (loadMazeFromFile s content).2.cols = (((content.map trimmed).headD []).length : Int) ∧
      ∀ (i j : Nat) (l : List Char) (ch : Char),
        (content.map trimmed)[i]? = some l → l[j]? = some ch →
          ((loadMazeFromFile s content).2.maze i j = 0 ↔ ch = '0') ∧
          ((loadMazeFromFile s content).2.maze i j = 1 ↔ ch = '1')) := by
  refine ⟨?_, ?_⟩
  · intro hbad
    cases hres : (loadMazeFromFile s content).1 with
    | false => rfl
    | true =>
      exfalso
      obtain ⟨hne, hN, hM, _, _, hlen, hlegal, _⟩ := loadMazeFromFile_grid s content hres
      rcases hbad with h | ⟨l, hl, h⟩ | ⟨l, hl, ch, hch, h0, h1⟩ | h | h
      · exact hne h
      · exact h (hlen l hl)
      · rcases hlegal l hl ch hch with h | h
        · exact h0 h
        · exact h1 h
      · omega
      · omega
  · intro hres
    obtain ⟨hne, hN, hM, hrows, hcols, _, _, hcells⟩ := loadMazeFromFile_grid s content hres
    refine ⟨?_, hN, hM, hrows, hcols, hcells⟩
    cases hl : content.map trimmed with
    | nil => exact absurd hl hne
    | cons a t => simp

/-- Witness for C9: a line with the illegal character `x` is rejected. -/
theorem loadMazeFromFile_format_witness :
    (loadMazeFromFile (blankWindow 1) [['0', '1'], ['1', 'x']]).1 = false :=
  (loadMazeFromFile_format (blankWindow 1) [['0', '1'], ['1', 'x']]).1
    (Or.inr (Or.inr (Or.inl (by decide))))

/-- C10 as stated fails for a grid with a single passage: the content `"0"` is
loaded and start and end are both (0,0). -/
theorem loadMazeFromFile_single_passage :
    (loadMazeFromFile (blankWindow 1) [['0']]).1 = true ∧
    (loadMazeFromFile (blankWindow 1) [['0']]).2.startPoint =
      (loadMazeFromFile (blankWindow 1) [['0']]).2.endPoint := by
  decide

/-- C10 (amended): for a content whose trimmed first line is not empty, a
successful load leaves start and end inside the loaded grid and on passages,
and they are distinct whenever the grid has two different passages; and a
content without any `'0'` makes the load return false. -/
theorem loadMazeFromFile_endpoints (s : MainWindow) (content : List (List Char))
    (hM : 1 ≤ ((content.map trimmed).headD []).length) :
    ((loadMazeFromFile s content).1 = true →
      inBounds (loadMazeFromFile s content).2 (loadMazeFromFile s content).2.startPoint ∧
      inBounds (loadMazeFromFile s content).2 (loadMazeFromFile s content).2.endPoint ∧
      (loadMazeFromFile s content).2.maze (loadMazeFromFile s content).2.startPoint.y
        (loadMazeFromFile s content).2.startPoint.x = 0 ∧
      (loadMazeFromFile s content).2.maze (loadMazeFromFile s content).2.endPoint.y
        (loadMazeFromFile s content).2.endPoint.x = 0 ∧
      ((∃ p q, inBounds (loadMazeFromFile s content).2 p ∧
          inBounds (loadMazeFromFile s content).2 q ∧ p ≠ q ∧
          (loadMazeFromFile s content).2.maze p.y p.x = 0 ∧
          (loadMazeFromFile s content).2.maze q.y q.x = 0) →
        (loadMazeFromFile s content).2.startPoint ≠ (loadMazeFromFile s content).2.endPoint)) ∧
    ((∀ l ∈ content.map trimmed, ∀ ch ∈ l, ch ≠ '0') →
      (loadMazeFromFile s content).1 = false) := by
  have key : (loadMazeFromFile s content).1 = true →
      inBounds (loadMazeFromFile s content).2 (loadMazeFromFile s content).2.startPoint ∧
      inBounds (loadMazeFromFile s content).2 (loadMazeFromFile s content).2.endPoint ∧
      (loadMazeFromFile s content).2.maze (loadMazeFromFile s content).2.startPoint.y
        (loadMazeFromFile s content).2.startPoint.x = 0 ∧
      (loadMazeFromFile s content).2.maze (loadMazeFromFile s content).2.endPoint.y
        (loadMazeFromFile s content).2.endPoint.x = 0 ∧
      ((∃ p q, inBounds (loadMazeFromFile s content).2 p ∧
          inBounds (loadMazeFromFile s content).2 q ∧ p ≠ q ∧
          (loadMazeFromFile s content).2.maze p.y p.x = 0 ∧
          (loadMazeFromFile s content).2.maze q.y q.x = 0) →
        (loadMazeFromFile s content).2.startPoint ≠
          (loadMazeFromFile s content).2.endPoint) := by
    intro hres
    obtain ⟨h1, h2⟩ := loadMazeFromFile_scan s content hres hM
    have hs1 := List.mem_of_find?_eq_some h1
    have hs2 := List.find?_some h1
    have he1 := List.mem_reverse.1 (List.mem_of_find?_eq_some h2)
    have he2 := List.find?_some h2
    rw [mem_scanCells] at hs1 he1
    refine ⟨hs1, he1, by simpa using hs2, by simpa using he2, ?_⟩
    rintro ⟨p, q, hp, hq, hpq, hp0, hq0⟩ heq
    rw [← heq] at h2
    have huniq := first_eq_last_unique _ _ _ (scanCells_nodup _ _) h1 h2
    have e1 := huniq p ((mem_scanCells _ _ _).2 hp) (by simpa using hp0)
    have e2 := huniq q ((mem_scanCells _ _ _).2 hq) (by simpa using hq0)
    exact hpq (e1.trans e2.symm)
  refine ⟨key, ?_⟩
  intro hnone
  cases hres : (loadMazeFromFile s content).1 with
  | false => rfl
  | true =>
    exfalso
    obtain ⟨⟨hx0, hx1, hy0, hy1⟩, _, hs0, _, _⟩ := key hres
    obtain ⟨_, _, _, hrows, hcols, hlen, _, hcells⟩ := loadMazeFromFile_grid s content hres
    rw [hrows] at hy1
    rw [hcols] at hx1
    generalize (loadMazeFromFile s content).2.startPoint = sp at hx0 hx1 hy0 hy1 hs0
    have hi : sp.y.toNat < (content.map trimmed).length := by omega
    have hl : (content.map trimmed)[sp.y.toNat]? = some (content.map trimmed)[sp.y.toNat] :=
      List.getElem?_eq_getElem hi
    have hlen' := hlen _ (List.getElem_mem hi)
    have hj : sp.x.toNat < ((content.map trimmed)[sp.y.toNat]).length := by omega
    have hch := List.getElem?_eq_getElem hj
    have hcell := (hcells sp.y.toNat sp.x.toNat _ _ hl hch).1
    have e1 : ((sp.y.toNat : Nat) : Int) = sp.y := Int.toNat_of_nonneg hy0
    have e2 : ((sp.x.toNat : Nat) : Int) = sp.x := Int.toNat_of_nonneg hx0
    rw [e1, e2] at hcell
    exact hnone _ (List.getElem_mem hi) _ (List.getElem_mem hj) (hcell.1 hs0)

/-- Witness for C10: a 2×2 content with two passages. -/
theorem loadMazeFromFile_endpoints_witness :
    (loadMazeFromFile (blankWindow 1) [['0', '1'], ['1', '0']]).2.maze
      (loadMazeFromFile (blankWindow 1) [['0', '1'], ['1', '0']]).2.startPoint.y
      (loadMazeFromFile (blankWindow 1) [['0', '1'], ['1', '0']]).2.startPoint.x = 0 :=
  ((loadMazeFromFile_endpoints (blankWindow 1) [['0', '1'], ['1', '0']] (by decide)).1
    (by decide)).2.2.1


end Maze
